import Mathlib

/-!
A verification development for the per-shard storage and query core of
dingo-store: shallow embeddings of the split checker
(`split/split_checker.cc`), the timestamp provider (`mvcc/ts_provider.cc`),
the vector reader search pipeline (`vector/vector_reader.cc`) and the
raw rocks engine writer (`engine/raw_rocks_engine.cc`), together with
theorems about their behaviour.
-/

namespace DingoStore

/-! ## Split checker (`split/split_checker.cc`)

`MergedIterator` walks all column families of a region through a min-heap
bounded above by the region's encoded end key, yielding entries in key
order; each entry carries the encoded key and the key+value size
(`MergedIterator::KeyValueSize`).  We embed the stream of entries a
checker consumes as a list. -/

/-- Keys are byte strings; RocksDB and `std::string` compare them by
bytewise lexicographic order, which we embed as lists of bytes. -/
abbrev Key : Type := List Nat

/-- One entry yielded by `MergedIterator`: the encoded key and the
key+value size (`iter.Key()`, `iter.KeyValueSize()`). -/
structure SCEntry where
  key : Key
  sz : Nat
deriving DecidableEq, Repr

/-- The loop body of `HalfSplitChecker::SplitKey`: accumulate total `size`
and a chunk accumulator; each time the chunk accumulator reaches
`split_chunk_size_` it is reset to zero and the current key is recorded;
`is_split` is set whenever the total reaches `split_threshold_size_`; the
distinct-key count is also maintained.  State is
`(size, chunk, keys, count, prevKey, isSplit)`. -/
def halfSplitLoop (chunkLimit threshold : Int) :
    List SCEntry → Int → Int → List Key → Nat → Key → Bool →
      Int × List Key × Nat × Bool
  | [], size, _chunk, keys, count, _prev, isSplit => (size, keys, count, isSplit)
  | e :: rest, size, chunk, keys, count, prev, isSplit =>
    let kv : Int := (e.sz : Int)
    let size' := size + kv
    let chunk' := chunk + kv
    let chunk'' := if chunk' ≥ chunkLimit then 0 else chunk'
    let keys' := if chunk' ≥ chunkLimit then keys ++ [e.key] else keys
    let isSplit' := if size' ≥ threshold then true else isSplit
    let count' := if prev ≠ e.key then count + 1 else count
    let prev' := if prev ≠ e.key then e.key else prev
    halfSplitLoop chunkLimit threshold rest size' chunk'' keys' count' prev' isSplit'

/-- `HalfSplitChecker::SplitKey`: run the loop, then return
`keys[keys.size()/2]` if the split was committed, else the empty string. -/
def halfSplitKey (threshold chunkLimit : Int) (entries : List SCEntry) : Key :=
  let r := halfSplitLoop chunkLimit threshold entries 0 0 [] 0 [] false
  let keys := r.2.1
  let isSplit := r.2.2.2
  let mid := keys.length / 2
  let splitKey := if keys.isEmpty then [] else keys.getD mid []
  if isSplit then splitKey else []

/-- The loop body of `SizeSplitChecker::SplitKey`: accumulate `size`; the
first time it reaches `split_pos` record the current key as split key;
`else if` it reaches `split_size_` set `is_split`.  State is
`(size, splitKey, count, prevKey, isSplit)`. -/
def sizeSplitLoop (splitPos splitSize : Int) :
    List SCEntry → Int → Key → Nat → Key → Bool →
      Int × Key × Nat × Bool
  | [], size, skey, count, _prev, isSplit => (size, skey, count, isSplit)
  | e :: rest, size, skey, count, prev, isSplit =>
    let size' := size + (e.sz : Int)
    let skey' := if skey = [] ∧ size' ≥ splitPos then e.key else skey
    let isSplit' :=
      if skey = [] ∧ size' ≥ splitPos then isSplit
      else if size' ≥ splitSize then true
      else isSplit
    let count' := if prev ≠ e.key then count + 1 else count
    let prev' := if prev ≠ e.key then e.key else prev
    sizeSplitLoop splitPos splitSize rest size' skey' count' prev' isSplit'

/-- `SizeSplitChecker::SplitKey`: `split_pos = split_size_ * split_ratio_`.
The float `split_ratio_` is embedded as the exact rational
`ratioNum / ratioDen` (every float is such a rational); the C++
float-to-`int64_t` conversion truncates toward zero. -/
def sizeSplitKey (splitSize : Int) (ratioNum ratioDen : Nat) (entries : List SCEntry) : Key :=
  let splitPos : Int := (splitSize * (ratioNum : Int)).tdiv (ratioDen : Int)
  let r := sizeSplitLoop splitPos splitSize entries 0 [] 0 [] false
  let skey := r.2.1
  let isSplit := r.2.2.2
  if isSplit then skey else []

/-- The loop body of `KeysSplitChecker::SplitKey`: count logically
distinct keys; the first time the count reaches `split_key_number` record
the current key; `else if` the count equals `split_keys_number_` set
`is_split`.  State is `(splitKeyCount, prevKey, splitKey, isSplit)`. -/
def keysSplitLoop (splitKeyNumber targetNumber : Int) :
    List SCEntry → Int → Key → Key → Bool → Key × Bool
  | [], _cnt, _prev, skey, isSplit => (skey, isSplit)
  | e :: rest, cnt, prev, skey, isSplit =>
    let cnt' := if prev ≠ e.key then cnt + 1 else cnt
    let prev' := if prev ≠ e.key then e.key else prev
    let skey' := if skey = [] ∧ cnt' ≥ splitKeyNumber then e.key else skey
    let isSplit' :=
      if skey = [] ∧ cnt' ≥ splitKeyNumber then isSplit
      else if cnt' = targetNumber then true
      else isSplit
    keysSplitLoop splitKeyNumber targetNumber rest cnt' prev' skey' isSplit'

/-- `KeysSplitChecker::SplitKey`: `split_key_number` is the truncated
float product `split_keys_number_ * split_keys_ratio_`; the float ratio
is embedded as the exact rational `ratioNum / ratioDen`. -/
def keysSplitKey (targetNumber ratioNum ratioDen : Nat) (entries : List SCEntry) : Key :=
  let splitKeyNumber : Int := ((targetNumber * ratioNum) / ratioDen : Nat)
  let r := keysSplitLoop splitKeyNumber (targetNumber : Int) entries 0 [] [] false
  if r.2 then r.1 else []

/-- Cumulative key+value size of the first `i` merged-iterator entries. -/
def cumSize (entries : List SCEntry) (i : Nat) : Int :=
  ((entries.take i).map (fun e => (e.sz : Int))).sum

/-- Index of the first entry at which `s` plus the accumulated size has
reached `pos`; `s` is the size already accumulated before `l`. -/
def firstReachIdxFrom (pos s : Int) (l : List SCEntry) : Option Nat :=
  (List.range l.length).find? (fun i => decide (pos ≤ s + cumSize l (i + 1)))

/-- Index of the first entry at which the accumulated size has reached
`pos` (the spec's "first key where accumulated size ≥ threshold ×
split_ratio"). -/
def firstReachIdx (pos : Int) (entries : List SCEntry) : Option Nat :=
  firstReachIdxFrom pos 0 entries

/-- The key at `firstReachIdxFrom`, or `""` when the accumulated size
never reaches `pos`. -/
def firstReachKeyFrom (pos s : Int) (l : List SCEntry) : Key :=
  match firstReachIdxFrom pos s l with
  | some i => (l.getD i ⟨[], 0⟩).key
  | none => []

/-- The key at `firstReachIdx`, or `""` when the accumulated size never
reaches `pos`. -/
def firstReachKey (pos : Int) (entries : List SCEntry) : Key :=
  firstReachKeyFrom pos 0 entries

/-- The commit condition of the SIZE checker relative to an offset `s`
and a flag `kEmpty` telling whether the split key is still unset:
the accumulated size reaches `threshold` at some entry at which the
split-key-recording condition does not simultaneously fire. -/
def sizeCommitFrom (pos threshold s : Int) (kEmpty : Bool) (l : List SCEntry) : Bool :=
  (List.range l.length).any (fun i =>
    decide (threshold ≤ s + cumSize l (i + 1)) &&
      !(kEmpty && decide (firstReachIdxFrom pos s l = some i)))

/-- The commit condition actually implemented by the SIZE checker:
because of the `else if`, the entry that first reaches `pos` (and
records the split key) never sets `is_split`. -/
def sizeCommit (pos threshold : Int) (entries : List SCEntry) : Bool :=
  sizeCommitFrom pos threshold 0 true entries

/-- Whether the accumulated size starting from `s` reaches `threshold`
at some entry of `l`. -/
def reachesFrom (threshold s : Int) (l : List SCEntry) : Bool :=
  (List.range l.length).any (fun i => decide (threshold ≤ s + cumSize l (i + 1)))

/-- The behaviour the spec sentence claims for the SIZE checker: split
key = first key where accumulated size reaches `threshold × ratio`,
committed exactly when the total accumulated size reaches the
threshold. -/
def claimedSizeSplitKey (splitSize : Int) (ratioNum ratioDen : Nat) (entries : List SCEntry) : Key :=
  let splitPos : Int := (splitSize * (ratioNum : Int)).tdiv (ratioDen : Int)
  if splitSize ≤ cumSize entries entries.length then firstReachKey splitPos entries else []

/-- The HALF checker's candidate keys, written as a stand-alone
recursion: every time another `chunkLimit` bytes have been accumulated,
the current key is remembered and the chunk accumulator resets. -/
def chunkCandidates (chunkLimit : Int) : List SCEntry → Int → List Key
  | [], _ => []
  | e :: rest, acc =>
    let acc' := acc + (e.sz : Int)
    if acc' ≥ chunkLimit then e.key :: chunkCandidates chunkLimit rest 0
    else chunkCandidates chunkLimit rest acc'

/-- The checks `SplitCheckTask::SplitCheck` performs on the decoded split
key before dispatching a `SplitRegion` request. -/
structure SplitCheckCtx where
  plainSplitKey : Key
  epochUnchanged : Bool
  keyInRange : Bool
  disableChange : Bool
  tempDisableChange : Bool
  stateNormal : Bool
  leaderOk : Bool
  monoStoreBlocked : Bool
  vectorTaskTooMany : Bool
deriving DecidableEq, Repr

/-- The `need_split` decision chain of `SplitCheckTask::SplitCheck`: every
guard in the `do { ... } while (false)` block must pass. -/
def splitCheckNeedSplit (c : SplitCheckCtx) : Bool :=
  !(decide (c.plainSplitKey = [])) && c.epochUnchanged && c.keyInRange &&
    !c.disableChange && !c.tempDisableChange && c.stateNormal && c.leaderOk &&
    !c.monoStoreBlocked && !c.vectorTaskTooMany

/-- Total key+value size of a merged-iterator stream. -/
def totalSize (l : List SCEntry) : Int :=
  (l.map fun e => (e.sz : Int)).sum

/-! ## Timestamp provider (`mvcc/ts_provider.cc`)

`BatchTsList` is a Michael–Scott queue of `BatchTs` nodes consumed from
the head; `Push` appends at the tail.  We embed a queue state as a head
node plus the list of the remaining nodes, and the operations as
sequential functions on that state. -/

/-- A `BatchTs` node.  The class itself is declared in `ts_provider.h`
(not part of the excerpt); modelled from the spec: a pre-fetched block of
timestamps `[start, end)` with a monotonically increasing cursor that
yields `ts = (physical << 18) | logical` values and never decreases.
`stale` abstracts the time-dependent `BatchTsList::IsStale` verdict. -/
structure BatchTs where
  cur : Int
  endTs : Int
  stale : Bool
deriving DecidableEq, Repr

/-- Modelled from the spec: `BatchTs::GetTs` (declared in the missing
`ts_provider.h`) pops the cursor: it returns the current cursor value and
advances it while the batch is not exhausted, and returns 0 once the
cursor has reached the end of the batch. -/
def batchTsGet (b : BatchTs) : Int × BatchTs :=
  if b.cur < b.endTs then (b.cur, { b with cur := b.cur + 1 }) else (0, b)

/-- `BatchTsList::GetTs`: if the head is not stale, pop a timestamp from
it and return it when it is positive and greater than `afterTs`;
otherwise retire the head to the dead queue and retry on the next node,
returning 0 when no next node exists. -/
def batchTsListGetTs (afterTs : Int) : BatchTs → List BatchTs → Int × BatchTs × List BatchTs
  | head, rest =>
    let p := if head.stale then (0, head) else batchTsGet head
    if ¬head.stale ∧ p.1 > afterTs ∧ p.1 > 0 then (p.1, p.2, rest)
    else
      match rest with
      | [] => (0, p.2, [])
      | next :: rest' => batchTsListGetTs afterTs next rest'

/-- `FLAGS_ts_provider_max_retry_num` (default 16). -/
def tsProviderMaxRetryNum : Nat := 16

/-- The retry loop of `TsProvider::GetTs`: up to `fuel` attempts; a failed
attempt triggers a synchronous renew (`LaunchRenewBatchTs(true)`), which
may push one fresh batch at the tail (`renew attempt`, `none` when the
TSO request fails). -/
def tsProviderGetTsAux (renew : Nat → Option BatchTs) (afterTs : Int) :
    Nat → Nat → BatchTs → List BatchTs → Int × BatchTs × List BatchTs
  | 0, _, head, rest => (0, head, rest)
  | fuel + 1, attempt, head, rest =>
    let r := batchTsListGetTs afterTs head rest
    if r.1 > 0 then r
    else
      match renew attempt with
      | some b => tsProviderGetTsAux renew afterTs fuel (attempt + 1) r.2.1 (r.2.2 ++ [b])
      | none => tsProviderGetTsAux renew afterTs fuel (attempt + 1) r.2.1 r.2.2

/-- `TsProvider::GetTs`: run the retry loop with
`FLAGS_ts_provider_max_retry_num` attempts and return the timestamp (0
after every attempt failed). -/
def tsProviderGetTs (renew : Nat → Option BatchTs) (afterTs : Int)
    (head : BatchTs) (rest : List BatchTs) : Int :=
  (tsProviderGetTsAux renew afterTs tsProviderMaxRetryNum 0 head rest).1

/-- An operation applied to a `BatchTsList`: a consumer `GetTs` call or a
producer `Push` of a renewed batch. -/
inductive TsOp where
  | getTs (afterTs : Int)
  | push (b : BatchTs)
deriving DecidableEq, Repr

/-- Run a sequence of operations against a `BatchTsList` state,
collecting the successful (positive) results of the `GetTs` calls. -/
def runTsOps : List TsOp → BatchTs → List BatchTs → List Int
  | [], _, _ => []
  | TsOp.getTs af :: ops, head, rest =>
    let r := batchTsListGetTs af head rest
    if r.1 > 0 then r.1 :: runTsOps ops r.2.1 r.2.2 else runTsOps ops r.2.1 r.2.2
  | TsOp.push b :: ops, head, rest => runTsOps ops head (rest ++ [b])

/-- Well-formedness of a queue suffix relative to a lower bound `lb`:
every node's cursor is at least `lb`, stays within the node's batch, and
successive nodes carry later batches (the TSO hands out monotonically
increasing, non-overlapping batches). -/
def wfChain (lb : Int) : List BatchTs → Prop
  | [] => True
  | b :: rest => lb ≤ b.cur ∧ b.cur ≤ b.endTs ∧ wfChain b.endTs rest

/-- The upper end of a queue: the last node's batch end (or `lb` for an
empty queue). -/
def chainUB (lb : Int) : List BatchTs → Int
  | [] => lb
  | b :: rest => chainUB b.endTs rest

/-- Well-formedness of an operation sequence relative to a running upper
bound: every pushed batch starts at or above everything already handed
out (the TSO monotonicity contract). -/
def tsOpsWF (ub : Int) : List TsOp → Prop
  | [] => True
  | TsOp.getTs _ :: ops => tsOpsWF ub ops
  | TsOp.push b :: ops => ub ≤ b.cur ∧ b.cur ≤ b.endTs ∧ tsOpsWF b.endTs ops

/-! ## Vector search (`vector/vector_reader.cc`)

Candidates returned by an index search, as `(vector id, distance)`
pairs.  Distances are embedded as exact integers: the embedding models
the comparison and merge logic, not float rounding.  The comparator of
`DistanceResult` orders by distance and breaks ties by vector id. -/

/-- A search candidate: vector id and its distance to the (fixed) query
vector. -/
structure Cand where
  vid : Int
  dist : Int
deriving DecidableEq, Repr

/-- The order of `DistanceResult`'s `operator<`: by distance, ties by
vector id. -/
def candLe (a b : Cand) : Prop :=
  a.dist < b.dist ∨ (a.dist = b.dist ∧ a.vid ≤ b.vid)

instance : DecidableRel candLe := fun a b => by
  unfold candLe; exact inferInstance

instance : IsTotal Cand candLe where
  total a b := by
    unfold candLe
    rcases lt_trichotomy a.dist b.dist with h | h | h
    · exact Or.inl (Or.inl h)
    · rcases le_total a.vid b.vid with h2 | h2
      · exact Or.inl (Or.inr ⟨h, h2⟩)
      · exact Or.inr (Or.inr ⟨h.symm, h2⟩)
    · exact Or.inr (Or.inl h)

instance : IsTrans Cand candLe where
  trans a b c hab hbc := by
    unfold candLe at *
    rcases hab with h1 | ⟨h1, h1'⟩ <;> rcases hbc with h2 | ⟨h2, h2'⟩
    · exact Or.inl (h1.trans h2)
    · exact Or.inl (h2 ▸ h1)
    · exact Or.inl (h1 ▸ h2)
    · exact Or.inr ⟨h1.trans h2, h1'.trans h2'⟩

instance : IsAntisymm Cand candLe where
  antisymm a b hab hba := by
    unfold candLe at *
    rcases hab with h1 | ⟨h1, h1'⟩ <;> rcases hba with h2 | ⟨h2, h2'⟩
    · exact absurd h2 (lt_asymm h1)
    · exact absurd h1 (h2 ▸ lt_irrefl _)
    · exact absurd h2 (h1 ▸ lt_irrefl _)
    · cases a; cases b; simp only at h1 h1' h2'
      simp [h1, le_antisymm h1' h2']

instance : IsRefl Cand candLe where
  refl a := Or.inr ⟨rfl, le_refl a.vid⟩

/-- Modelled from the spec: the Flat index search semantics
(`VectorIndexFlat::Search`, not part of the excerpt): at most `topk`
results, sorted ascending by distance with ties broken by vector id
ascending. -/
def indexSearch (topk : Nat) (l : List Cand) : List Cand :=
  (l.insertionSort candLe).take topk

/-- Split the data-CF scan into batches: a batch is emitted each time it
reaches `batchCount` records (`FLAGS_vector_index_bruteforce_batch_count`),
and the final partial batch is processed after the scan loop. -/
def chunksAux (batchCount : Nat) : List Cand → List Cand → List (List Cand)
  | [], acc => if acc.isEmpty then [] else [acc]
  | x :: xs, acc =>
    let acc' := acc ++ [x]
    if acc'.length = batchCount then acc' :: chunksAux batchCount xs []
    else chunksAux batchCount xs acc'

/-- The batches scanned by `VectorReader::BruteForceSearch`. -/
def chunks (batchCount : Nat) (l : List Cand) : List (List Cand) :=
  chunksAux batchCount l []

/-- One insertion into the bounded priority queue of
`VectorReader::BruteForceSearch` (the queue is represented as a list
sorted ascending by `candLe`; its top, the maximum, is the last
element): push while fewer than `topk` elements are held, otherwise
replace the maximum only when its distance is strictly greater than the
candidate's distance. -/
def boundedInsert (topk : Nat) (q : List Cand) (c : Cand) : List Cand :=
  if q.length < topk then q.orderedInsert candLe c
  else
    match q.getLast? with
    | none => q
    | some m => if m.dist > c.dist then q.dropLast.orderedInsert candLe c else q

/-- `VectorReader::BruteForceSearch` for one query: scan the data CF in
batches, search each batch with a transient Flat index, and merge every
batch's results through the bounded priority queue; the final queue,
drained from the top into a deque, is the ascending result list. -/
def bruteForceSearch (topk batchCount : Nat) (data : List Cand) : List Cand :=
  ((chunks batchCount data).map (indexSearch topk)).foldl
    (fun q bs => bs.foldl (boundedInsert topk) q) []

/-- `FLAGS_vector_index_max_range_search_result_count` (default 1024). -/
def vectorIndexMaxRangeSearchResultCount : Nat := 1024

/-- The capped per-query merge loop of `VectorReader::BruteForceRangeSearch`:
append candidates while the result holds fewer than `cap` entries;
once the cap is reached the loop logs a warning and breaks. -/
def cappedAppend (cap : Nat) : List Cand → List Cand → List Cand
  | q, [] => q
  | q, c :: rest => if q.length < cap then cappedAppend cap (q ++ [c]) rest else q

/-- Status of a vector reader operation (`butil::Status`): `ok` or an
error. -/
inductive VStatus where
  | ok
  | err
deriving DecidableEq, Repr

/-- One batch of `VectorReader::BruteForceRangeSearch`: a failed
`AddByParallel`/`RangeSearchByParallel` (`none`) aborts the call with an
error; otherwise the per-query in-radius results of the transient Flat
index are merged into the per-query accumulators with the capped
append. -/
def bruteForceRangeStep (cap : Nat) (st : VStatus × List (List Cand))
    (b : Option (List (List Cand))) : VStatus × List (List Cand) :=
  match st.1, b with
  | VStatus.err, _ => st
  | VStatus.ok, none => (VStatus.err, st.2)
  | VStatus.ok, some bres => (VStatus.ok, st.2.zipWith (cappedAppend cap) bres)

/-- `VectorReader::BruteForceRangeSearch`: scan the data CF batch by
batch and merge every batch's per-query results. -/
def bruteForceRangeSearch (cap numQueries : Nat)
    (batches : List (Option (List (List Cand)))) : VStatus × List (List Cand) :=
  batches.foldl (bruteForceRangeStep cap) (VStatus.ok, List.replicate numQueries [])

/-- Vector filter kind (`pb::common::VectorFilter`). -/
inductive VFilter where
  | scalarFilter
  | vectorIdFilter
  | tableFilter
deriving DecidableEq, Repr

/-- Vector filter type (`pb::common::VectorFilterType`). -/
inductive VFilterType where
  | queryPost
  | queryPre
deriving DecidableEq, Repr

/-- The request fields of `pb::common::VectorSearchParameter` that the
`SearchVector` dispatch reads. -/
structure SearchParam where
  topN : Nat
  enableRange : Bool
  hasCoproc : Bool
  filter : VFilter
  filterType : VFilterType
deriving DecidableEq, Repr

/-- One query vector of the request; only the size of its (deprecated)
inline `scalar_data` matters to the dispatch. -/
structure QueryVec where
  scalarDataSize : Nat
deriving DecidableEq, Repr

/-- The scalar post-filter loop of `VectorReader::SearchVector`: walk the
candidates, keep those whose scalar record passes, and - unless range
search is enabled - break as soon as `top_n` survivors are collected
(the count check runs after the append). `n` is the number of survivors
already collected. -/
def postFilterLoop (enableRange : Bool) (topN : Nat) (passes : Int → Bool) :
    Nat → List Cand → List Cand
  | _, [] => []
  | n, c :: rest =>
    if passes c.vid then
      if ¬enableRange ∧ topN ≤ n + 1 then [c]
      else c :: postFilterLoop enableRange topN passes (n + 1) rest
    else postFilterLoop enableRange topN passes n rest

/-- The dispatch of `VectorReader::SearchVector`.  `search topk` stands
for `SearchAndRangeSearchWrapper` producing per-query candidate lists at
the requested `topk`; `passes` stands for the per-candidate scalar
evaluation (`CompareVectorScalarDataWithCoprocessor` or
`CompareVectorScalarData`, both of which load the candidate's scalar
record from the scalar CF at the request timestamp); `otherResults`
stands for the results of the non-`SCALAR_FILTER`/`QUERY_POST` branches
(`DoVectorSearchForVectorIdPreFilter`, `DoVectorSearchForScalarPreFilter`,
`DoVectorSearchForTableCoprocessor`). -/
def searchVector (queries : List QueryVec) (p : SearchParam)
    (search : Nat → List (List Cand)) (passes : Int → Bool)
    (otherResults : List (List Cand)) : VStatus × List (List Cand) :=
  if queries.isEmpty then (VStatus.ok, [])
  else if p.filter = VFilter.scalarFilter ∧ p.filterType = VFilterType.queryPost then
    if (queries.headD ⟨0⟩).scalarDataSize = 0 ∧ ¬p.hasCoproc then
      (VStatus.ok, search p.topN)
    else
      (VStatus.ok, (search (p.topN * 10)).map (postFilterLoop p.enableRange p.topN passes 0))
  else (VStatus.ok, otherResults)

/-! ## Raw rocks engine writer (`engine/raw_rocks_engine.cc`)

The single-column-family store a writer mutates, embedded as an
association list from keys to values. -/

/-- A value stored in the engine (a byte string). -/
abbrev Value : Type := List Nat

/-- The key → value association of one column family. -/
abbrev Store : Type := List (Key × Value)

/-- Point lookup (`Transaction::GetForUpdate` succeeding vs
`IsNotFound`). -/
def storeGet : Store → Key → Option Value
  | [], _ => none
  | (k, v) :: rest, key => if k = key then some v else storeGet rest key

/-- Point write inside the transaction (`Transaction::Put`). -/
def storePut : Store → Key → Value → Store
  | [], key, value => [(key, value)]
  | (k, v) :: rest, key, value =>
    if k = key then (k, value) :: rest else (k, v) :: storePut rest key value

/-- Status of a raw engine operation (`butil::Status` error codes used
by the writer). -/
inductive KvStatus where
  | ok
  | keyEmpty
  | keyNotFound
  | internal
deriving DecidableEq, Repr

/-- `RawRocksEngine::Writer::KvCompareAndSetInternal`: inside a rocksdb
transaction, `GetForUpdate` the key; when it exists and `is_key_exist`
is false, roll back and report success with `key_state = false`; when it
is absent, fail with `KeyNotFound` unless this is a put-if-absent whose
expected value is empty; otherwise compare the expected value, put the
new value and commit, setting `key_state = true`.  Returns
`(status, key_state, store after the call)`. -/
def kvCompareAndSetInternal (store : Store) (kvKey : Key) (kvValue : Value)
    (value : Value) (isKeyExist : Bool) : KvStatus × Bool × Store :=
  if kvKey = [] then (KvStatus.keyEmpty, false, store)
  else
    match storeGet store kvKey with
    | some oldValue =>
      if ¬isKeyExist then (KvStatus.ok, false, store)
      else if kvValue ≠ oldValue then (KvStatus.internal, false, store)
      else (KvStatus.ok, true, storePut store kvKey value)
    | none =>
      if isKeyExist ∨ (¬isKeyExist ∧ kvValue ≠ []) then (KvStatus.keyNotFound, false, store)
      else if kvValue ≠ [] then (KvStatus.internal, false, store)
      else (KvStatus.ok, true, storePut store kvKey value)

/-- `RawRocksEngine::Writer::KvPutIfAbsent`: compare-and-set with an
empty expected value and `is_key_exist = false`. -/
def kvPutIfAbsent (store : Store) (key : Key) (value : Value) : KvStatus × Bool × Store :=
  kvCompareAndSetInternal store key [] value false

/-! ## Vector batch query (`VectorReader::VectorBatchQuery`) -/

/-- The fields of `pb::common::VectorWithId` the batch query touches. -/
structure VWID where
  vid : Int
  vecData : Option Value
  scalarData : Option Value
  tableData : Option Value
deriving DecidableEq, Repr

/-- A default-constructed `VectorWithId` (`ByteSizeLong() == 0`). -/
def emptyVWID : VWID :=
  { vid := 0, vecData := none, scalarData := none, tableData := none }

/-- `VectorReader::QueryVectorWithId`: `KvGet` the data CF; on
`EKEY_NOT_FOUND` the output record is left untouched (`none` here),
otherwise the id is set and, when requested, the vector payload is
attached. -/
def queryVectorWithId (dataCF : Int → Option Value) (withVec : Bool) (vid : Int) :
    Option VWID :=
  match dataCF vid with
  | none => none
  | some payload =>
    some { vid := vid, vecData := if withVec then some payload else none,
           scalarData := none, tableData := none }

/-- The scalar enrichment step of `VectorBatchQuery`: empty placeholder
records (`ByteSizeLong() == 0`) are skipped, a failed scalar lookup only
warns and leaves the record unchanged. -/
def scalarAttach (scalarCF : Int → Option Value) (v : VWID) : VWID :=
  if v = emptyVWID then v
  else match scalarCF v.vid with
    | some s => { v with scalarData := some s }
    | none => v

/-- The table enrichment step of `VectorBatchQuery`, analogous to
`scalarAttach`. -/
def tableAttach (tableCF : Int → Option Value) (v : VWID) : VWID :=
  if v = emptyVWID then v
  else match tableCF v.vid with
    | some t => { v with tableData := some t }
    | none => v

/-- `VectorReader::VectorBatchQuery`: one output record per requested id
in request order - a missing id yields an empty placeholder record; then
optional scalar and table enrichment passes that skip empty placeholders
and only warn on lookup failures; the call always returns OK. -/
def vectorBatchQuery (dataCF scalarCF tableCF : Int → Option Value)
    (withVec withScalar withTable : Bool) (ids : List Int) : VStatus × List VWID :=
  let phase1 := ids.map (fun i => (queryVectorWithId dataCF withVec i).getD emptyVWID)
  let phase2 := if withScalar then phase1.map (scalarAttach scalarCF) else phase1
  let phase3 := if withTable then phase2.map (tableAttach tableCF) else phase2
  (VStatus.ok, phase3)

/-- The record `VectorBatchQuery` produces for one requested id. -/
def expectedBatchEntry (dataCF scalarCF tableCF : Int → Option Value)
    (withVec withScalar withTable : Bool) (i : Int) : VWID :=
  let v1 := (queryVectorWithId dataCF withVec i).getD emptyVWID
  let v2 := if withScalar then scalarAttach scalarCF v1 else v1
  if withTable then tableAttach tableCF v2 else v2

/-! ## Helper lemmas: split checker -/

theorem listAnyCongr {α : Type} {p q : α → Bool} :
    ∀ (l : List α), (∀ x ∈ l, p x = q x) → l.any p = l.any q
  | [], _ => rfl
  | a :: l, h => by
    rw [List.any_cons, List.any_cons, h a (List.mem_cons_self a l),
      listAnyCongr l (fun x hx => h x (List.mem_cons_of_mem a hx))]

theorem cumSize_zero (l : List SCEntry) : cumSize l 0 = 0 := by
  simp [cumSize]

theorem cumSize_cons_succ (e : SCEntry) (l : List SCEntry) (i : Nat) :
    cumSize (e :: l) (i + 1) = (e.sz : Int) + cumSize l i := by
  simp [cumSize, List.take_succ_cons]

theorem firstReachIdxFrom_cons (pos s : Int) (e : SCEntry) (l : List SCEntry) :
    firstReachIdxFrom pos s (e :: l) =
      if pos ≤ s + (e.sz : Int) then some 0
      else (firstReachIdxFrom pos (s + (e.sz : Int)) l).map Nat.succ := by
  unfold firstReachIdxFrom
  rw [List.length_cons, List.range_succ_eq_map, List.find?_cons, List.find?_map]
  have hfe : ((fun i => decide (pos ≤ s + cumSize (e :: l) (i + 1))) ∘ Nat.succ) =
      (fun i => decide (pos ≤ s + (e.sz : Int) + cumSize l (i + 1))) := by
    funext i
    simp [Function.comp, cumSize_cons_succ, add_assoc]
  by_cases h : pos ≤ s + (e.sz : Int)
  · have h0 : (decide (pos ≤ s + cumSize (e :: l) (0 + 1))) = true := by
      simp [cumSize_cons_succ, cumSize_zero, h]
    rw [h0]
    simp [h]
  · have h0 : (decide (pos ≤ s + cumSize (e :: l) (0 + 1))) = false := by
      simp [cumSize_cons_succ, cumSize_zero, h]
    rw [h0, hfe]
    simp [h]

theorem sizeCommitFrom_cons (pos th s : Int) (kEmpty : Bool) (e : SCEntry) (l : List SCEntry) :
    sizeCommitFrom pos th s kEmpty (e :: l) =
      ((decide (th ≤ s + (e.sz : Int)) &&
        !(kEmpty && decide (pos ≤ s + (e.sz : Int)))) ||
      sizeCommitFrom pos th (s + (e.sz : Int))
        (kEmpty && !(decide (pos ≤ s + (e.sz : Int)))) l) := by
  have hsome : ∀ (o : Option Nat) (i : Nat), (o.map Nat.succ = some (i + 1)) ↔ o = some i := by
    intro o i; cases o <;> simp
  have hnone : ∀ (o : Option Nat), ¬ (o.map Nat.succ = some 0) := by
    intro o; cases o <;> simp
  unfold sizeCommitFrom
  rw [List.length_cons, List.range_succ_eq_map, List.any_cons, List.any_map]
  congr 1
  · have h0 : (decide (th ≤ s + cumSize (e :: l) (0 + 1))) = decide (th ≤ s + (e.sz : Int)) := by
      simp [cumSize_cons_succ, cumSize_zero]
    have h1 : (decide (firstReachIdxFrom pos s (e :: l) = some 0)) =
        decide (pos ≤ s + (e.sz : Int)) := by
      rw [firstReachIdxFrom_cons]
      by_cases h : pos ≤ s + (e.sz : Int)
      · simp [h]
      · simp only [if_neg h]
        rw [decide_eq_decide]
        constructor
        · intro hc; exact absurd hc (hnone _)
        · intro hc; exact absurd hc h
    rw [h0, h1]
  · apply listAnyCongr
    intro i _
    have h0 : (decide (th ≤ s + cumSize (e :: l) (Nat.succ i + 1))) =
        decide (th ≤ s + (e.sz : Int) + cumSize l (i + 1)) := by
      rw [decide_eq_decide]
      rw [cumSize_cons_succ, add_assoc]
    have h1 : (decide (firstReachIdxFrom pos s (e :: l) = some (Nat.succ i))) =
        ((!(decide (pos ≤ s + (e.sz : Int)))) &&
          decide (firstReachIdxFrom pos (s + (e.sz : Int)) l = some i)) := by
      rw [firstReachIdxFrom_cons]
      by_cases h : pos ≤ s + (e.sz : Int)
      · simp [h]
      · simp only [if_neg h]
        have hd : decide (pos ≤ s + (e.sz : Int)) = false := by simp [h]
        rw [hd, Bool.not_false, Bool.true_and, decide_eq_decide]
        exact hsome _ i
    simp only [Function.comp]
    rw [h0, h1]
    cases kEmpty <;> cases hp : decide (pos ≤ s + (e.sz : Int)) <;>
      cases hf : decide (firstReachIdxFrom pos (s + (e.sz : Int)) l = some i) <;> simp

theorem firstReachKeyFrom_nil (pos s : Int) : firstReachKeyFrom pos s [] = [] := by
  simp [firstReachKeyFrom, firstReachIdxFrom]

theorem sizeCommitFrom_nil (pos th s : Int) (kEmpty : Bool) :
    sizeCommitFrom pos th s kEmpty [] = false := by
  simp [sizeCommitFrom]

theorem firstReachKeyFrom_cons (pos s : Int) (e : SCEntry) (l : List SCEntry) :
    firstReachKeyFrom pos s (e :: l) =
      if pos ≤ s + (e.sz : Int) then e.key
      else firstReachKeyFrom pos (s + (e.sz : Int)) l := by
  unfold firstReachKeyFrom
  rw [firstReachIdxFrom_cons]
  by_cases h : pos ≤ s + (e.sz : Int)
  · simp [h]
  · simp only [if_neg h]
    cases hf : firstReachIdxFrom pos (s + (e.sz : Int)) l <;> simp [hf]

theorem sizeSplitLoop_spec (pos th : Int) :
    ∀ (l : List SCEntry), (∀ e ∈ l, e.key ≠ []) →
      ∀ (s : Int) (skey : Key) (count : Nat) (prev : Key) (b : Bool),
      (sizeSplitLoop pos th l s skey count prev b).2.1 =
        (if skey = [] then firstReachKeyFrom pos s l else skey) ∧
      (sizeSplitLoop pos th l s skey count prev b).2.2.2 =
        (b || sizeCommitFrom pos th s (decide (skey = [])) l)
  | [], _, s, skey, count, prev, b => by
    constructor
    · rw [firstReachKeyFrom_nil]
      by_cases h : skey = [] <;> simp [sizeSplitLoop, h]
    · rw [sizeCommitFrom_nil]
      simp [sizeSplitLoop]
  | e :: l, hkeys, s, skey, count, prev, b => by
    have hek : e.key ≠ [] := hkeys e (List.mem_cons_self e l)
    have hkl : ∀ x ∈ l, x.key ≠ [] := fun x hx => hkeys x (List.mem_cons_of_mem e hx)
    have ih := sizeSplitLoop_spec pos th l hkl
    rw [firstReachKeyFrom_cons, sizeCommitFrom_cons]
    by_cases hsk : skey = []
    · subst hsk
      by_cases hp : pos ≤ s + (e.sz : Int)
      · simp only [sizeSplitLoop, ge_iff_le, hp, and_self, if_true, true_and]
        have h1 := (ih (s + (e.sz : Int)) e.key (if prev ≠ e.key then count + 1 else count)
          (if prev ≠ e.key then e.key else prev) b).1
        have h2 := (ih (s + (e.sz : Int)) e.key (if prev ≠ e.key then count + 1 else count)
          (if prev ≠ e.key then e.key else prev) b).2
        rw [h1, h2]
        constructor
        · simp [hek, hp]
        · simp [hek, hp]
      · simp only [sizeSplitLoop, ge_iff_le, hp, true_and, and_false, if_false, false_and,
          if_neg hp]
        have hb' := ih (s + (e.sz : Int)) [] (if prev ≠ e.key then count + 1 else count)
          (if prev ≠ e.key then e.key else prev)
          (if th ≤ s + (e.sz : Int) then true else b)
        rw [hb'.1, hb'.2]
        constructor
        · simp [hp]
        · have hpd : decide (pos ≤ s + (e.sz : Int)) = false := by simp [hp]
          simp only [hpd, decide_True]
          by_cases hth : th ≤ s + (e.sz : Int) <;>
            simp [hth, Bool.or_assoc, Bool.or_comm, Bool.or_left_comm]
    · simp only [sizeSplitLoop, ge_iff_le, hsk, false_and, if_false]
      have hb' := ih (s + (e.sz : Int)) skey (if prev ≠ e.key then count + 1 else count)
        (if prev ≠ e.key then e.key else prev)
        (if th ≤ s + (e.sz : Int) then true else b)
      rw [hb'.1, hb'.2]
      constructor
      · simp [hsk]
      · have hsd : decide (skey = []) = false := by simp [hsk]
        simp only [hsd]
        by_cases hth : th ≤ s + (e.sz : Int) <;>
          simp [hth, Bool.or_assoc, Bool.or_comm, Bool.or_left_comm]

theorem reachesFrom_nil (th s : Int) : reachesFrom th s [] = false := by
  simp [reachesFrom]

theorem reachesFrom_cons (th s : Int) (e : SCEntry) (l : List SCEntry) :
    reachesFrom th s (e :: l) =
      (decide (th ≤ s + (e.sz : Int)) || reachesFrom th (s + (e.sz : Int)) l) := by
  unfold reachesFrom
  rw [List.length_cons, List.range_succ_eq_map, List.any_cons, List.any_map]
  have h0 : (decide (th ≤ s + cumSize (e :: l) (0 + 1))) = decide (th ≤ s + (e.sz : Int)) := by
    simp [cumSize_cons_succ, cumSize_zero]
  have h1 : ((fun i => decide (th ≤ s + cumSize (e :: l) (i + 1))) ∘ Nat.succ) =
      (fun i => decide (th ≤ s + (e.sz : Int) + cumSize l (i + 1))) := by
    funext i
    simp [Function.comp, cumSize_cons_succ, add_assoc]
  rw [h0, h1]

theorem totalSize_nonneg (l : List SCEntry) : 0 ≤ totalSize l := by
  apply List.sum_nonneg
  intro x hx
  rcases List.mem_map.mp hx with ⟨e, _, rfl⟩
  exact Int.ofNat_nonneg e.sz

theorem totalSize_cons (e : SCEntry) (l : List SCEntry) :
    totalSize (e :: l) = (e.sz : Int) + totalSize l := by
  simp [totalSize]

theorem reachesFrom_eq_total (th : Int) :
    ∀ (l : List SCEntry) (s : Int), l ≠ [] →
      reachesFrom th s l = decide (th ≤ s + totalSize l)
  | [], _, h => absurd rfl h
  | [e], s, _ => by
    rw [reachesFrom_cons, reachesFrom_nil, totalSize_cons]
    simp [totalSize]
  | e :: e' :: l, s, _ => by
    rw [reachesFrom_cons, reachesFrom_eq_total th (e' :: l) (s + (e.sz : Int)) (by simp)]
    have htot : totalSize (e :: e' :: l) = (e.sz : Int) + totalSize (e' :: l) :=
      totalSize_cons e (e' :: l)
    rw [htot]
    have hnn : 0 ≤ totalSize (e' :: l) := totalSize_nonneg _
    by_cases h2 : th ≤ s + (e.sz : Int) + totalSize (e' :: l)
    · have h2a : th ≤ s + ((e.sz : Int) + totalSize (e' :: l)) := by
        rw [← add_assoc]; exact h2
      simp [h2, h2a]
    · have h1 : ¬ th ≤ s + (e.sz : Int) := fun h => h2 (le_add_of_le_of_nonneg h hnn)
      have h2a : ¬ th ≤ s + ((e.sz : Int) + totalSize (e' :: l)) := by
        rw [← add_assoc]; exact h2
      simp [h1, h2, h2a]

theorem halfSplitLoop_spec (ch th : Int) :
    ∀ (l : List SCEntry) (s chunk : Int) (keys : List Key) (count : Nat) (prev : Key) (b : Bool),
      (halfSplitLoop ch th l s chunk keys count prev b).2.1 =
        keys ++ chunkCandidates ch l chunk ∧
      (halfSplitLoop ch th l s chunk keys count prev b).2.2.2 =
        (b || reachesFrom th s l)
  | [], s, chunk, keys, count, prev, b => by
    rw [reachesFrom_nil]
    simp [halfSplitLoop, chunkCandidates]
  | e :: l, s, chunk, keys, count, prev, b => by
    rw [reachesFrom_cons]
    have ih := halfSplitLoop_spec ch th l
    by_cases hc : chunk + (e.sz : Int) ≥ ch
    · simp only [halfSplitLoop, ge_iff_le, hc, if_true, chunkCandidates]
      have h := ih (s + (e.sz : Int)) 0 (keys ++ [e.key])
        (if prev ≠ e.key then count + 1 else count)
        (if prev ≠ e.key then e.key else prev)
        (if s + (e.sz : Int) ≥ th then true else b)
      rw [h.1, h.2]
      constructor
      · simp [hc]
      · by_cases hth : th ≤ s + (e.sz : Int) <;>
          simp [hth, Bool.or_assoc, Bool.or_comm, Bool.or_left_comm]
    · simp only [halfSplitLoop, ge_iff_le, hc, if_false, chunkCandidates]
      have h := ih (s + (e.sz : Int)) (chunk + (e.sz : Int)) keys
        (if prev ≠ e.key then count + 1 else count)
        (if prev ≠ e.key then e.key else prev)
        (if s + (e.sz : Int) ≥ th then true else b)
      rw [h.1, h.2]
      constructor
      · simp [hc]
      · by_cases hth : th ≤ s + (e.sz : Int) <;>
          simp [hth, Bool.or_assoc, Bool.or_comm, Bool.or_left_comm]

theorem halfSplitKey_eq_spec (threshold chunkLimit : Int) (entries : List SCEntry) :
    halfSplitKey threshold chunkLimit entries =
      (if threshold ≤ totalSize entries ∧ chunkCandidates chunkLimit entries 0 ≠ [] then
        (chunkCandidates chunkLimit entries 0).getD
          ((chunkCandidates chunkLimit entries 0).length / 2) []
      else []) := by
  cases entries with
  | nil =>
    simp [halfSplitKey, halfSplitLoop, chunkCandidates]
  | cons e l =>
    have h := halfSplitLoop_spec chunkLimit threshold (e :: l) 0 0 [] 0 [] false
    simp only [halfSplitKey]
    rw [h.1, h.2, reachesFrom_eq_total threshold (e :: l) 0 (by simp)]
    simp only [List.nil_append, Bool.false_or, zero_add]
    by_cases hth : threshold ≤ totalSize (e :: l)
    · by_cases hc : chunkCandidates chunkLimit (e :: l) 0 = []
      · simp [hth, hc]
      · simp [hth, hc, List.isEmpty_iff]
    · simp [hth]

theorem sizeSplitKey_eq_spec (splitSize : Int) (ratioNum ratioDen : Nat)
    (entries : List SCEntry) (hkeys : ∀ e ∈ entries, e.key ≠ []) :
    sizeSplitKey splitSize ratioNum ratioDen entries =
      (if sizeCommit ((splitSize * (ratioNum : Int)).tdiv (ratioDen : Int)) splitSize entries
       then firstReachKey ((splitSize * (ratioNum : Int)).tdiv (ratioDen : Int)) entries
       else []) := by
  have h := sizeSplitLoop_spec ((splitSize * (ratioNum : Int)).tdiv (ratioDen : Int)) splitSize
    entries hkeys 0 [] 0 [] false
  simp only [sizeSplitKey]
  rw [h.1, h.2]
  simp [firstReachKey, sizeCommit]

theorem getD_mem {l : List Key} {i : Nat} (h : i < l.length) : l.getD i [] ∈ l := by
  rw [List.getD_eq_getElem l [] h]
  exact List.getElem_mem h

theorem chunkCandidates_mem (ch : Int) :
    ∀ (l : List SCEntry) (acc : Int) (x : Key),
      x ∈ chunkCandidates ch l acc → x ∈ l.map SCEntry.key
  | [], acc, x, hx => by simp [chunkCandidates] at hx
  | e :: l, acc, x, hx => by
    unfold chunkCandidates at hx
    by_cases hc : acc + (e.sz : Int) ≥ ch
    · rw [if_pos hc] at hx
      rcases List.mem_cons.mp hx with h | h
      · rw [List.map_cons, h]
        exact List.mem_cons_self _ _
      · exact List.mem_cons_of_mem _ (chunkCandidates_mem ch l 0 x h)
    · rw [if_neg hc] at hx
      exact List.mem_cons_of_mem _ (chunkCandidates_mem ch l (acc + (e.sz : Int)) x hx)

theorem sizeSplitLoop_skey_mem (pos th : Int) :
    ∀ (l : List SCEntry) (s : Int) (skey : Key) (count : Nat) (prev : Key) (b : Bool),
      (sizeSplitLoop pos th l s skey count prev b).2.1 = skey ∨
      (sizeSplitLoop pos th l s skey count prev b).2.1 ∈ l.map SCEntry.key
  | [], s, skey, count, prev, b => Or.inl rfl
  | e :: l, s, skey, count, prev, b => by
    simp only [sizeSplitLoop]
    by_cases hc : skey = [] ∧ s + (e.sz : Int) ≥ pos
    · rw [if_pos hc, if_pos hc]
      rcases sizeSplitLoop_skey_mem pos th l (s + (e.sz : Int)) e.key
        (if prev ≠ e.key then count + 1 else count) (if prev ≠ e.key then e.key else prev) b
        with h | h
      · right
        rw [h, List.map_cons]
        exact List.mem_cons_self _ _
      · exact Or.inr (List.mem_cons_of_mem _ h)
    · rw [if_neg hc, if_neg hc]
      rcases sizeSplitLoop_skey_mem pos th l (s + (e.sz : Int)) skey
        (if prev ≠ e.key then count + 1 else count) (if prev ≠ e.key then e.key else prev)
        (if s + (e.sz : Int) ≥ th then true else b) with h | h
      · exact Or.inl h
      · exact Or.inr (List.mem_cons_of_mem _ h)

theorem keysSplitLoop_skey_mem (num target : Int) :
    ∀ (l : List SCEntry) (cnt : Int) (prev skey : Key) (b : Bool),
      (keysSplitLoop num target l cnt prev skey b).1 = skey ∨
      (keysSplitLoop num target l cnt prev skey b).1 ∈ l.map SCEntry.key
  | [], cnt, prev, skey, b => Or.inl rfl
  | e :: l, cnt, prev, skey, b => by
    simp only [keysSplitLoop]
    by_cases hc : skey = [] ∧ (if prev ≠ e.key then cnt + 1 else cnt) ≥ num
    · rw [if_pos hc, if_pos hc]
      rcases keysSplitLoop_skey_mem num target l (if prev ≠ e.key then cnt + 1 else cnt)
        (if prev ≠ e.key then e.key else prev) e.key b with h | h
      · right
        rw [h, List.map_cons]
        exact List.mem_cons_self _ _
      · exact Or.inr (List.mem_cons_of_mem _ h)
    · rw [if_neg hc, if_neg hc]
      rcases keysSplitLoop_skey_mem num target l (if prev ≠ e.key then cnt + 1 else cnt)
        (if prev ≠ e.key then e.key else prev) skey
        (if (if prev ≠ e.key then cnt + 1 else cnt) = target then true else b) with h | h
      · exact Or.inl h
      · exact Or.inr (List.mem_cons_of_mem _ h)

theorem halfSplitKey_empty_or_mem (threshold chunkLimit : Int) (entries : List SCEntry) :
    halfSplitKey threshold chunkLimit entries = [] ∨
      halfSplitKey threshold chunkLimit entries ∈ entries.map SCEntry.key := by
  rw [halfSplitKey_eq_spec]
  by_cases h : threshold ≤ totalSize entries ∧ chunkCandidates chunkLimit entries 0 ≠ []
  · rw [if_pos h]
    right
    have hne := h.2
    have hlen : (chunkCandidates chunkLimit entries 0).length / 2 <
        (chunkCandidates chunkLimit entries 0).length := by
      have : 0 < (chunkCandidates chunkLimit entries 0).length :=
        List.length_pos.mpr hne
      omega
    exact chunkCandidates_mem chunkLimit entries 0 _ (getD_mem hlen)
  · rw [if_neg h]
    exact Or.inl rfl

theorem sizeSplitKey_empty_or_mem (splitSize : Int) (ratioNum ratioDen : Nat)
    (entries : List SCEntry) :
    sizeSplitKey splitSize ratioNum ratioDen entries = [] ∨
      sizeSplitKey splitSize ratioNum ratioDen entries ∈ entries.map SCEntry.key := by
  unfold sizeSplitKey
  simp only []
  have hm := sizeSplitLoop_skey_mem ((splitSize * (ratioNum : Int)).tdiv (ratioDen : Int))
    splitSize entries 0 [] 0 [] false
  set r := sizeSplitLoop ((splitSize * (ratioNum : Int)).tdiv (ratioDen : Int)) splitSize
    entries 0 [] 0 [] false with hr
  by_cases hb : r.2.2.2
  · rw [if_pos hb]
    exact hm
  · rw [if_neg hb]
    exact Or.inl rfl

theorem keysSplitKey_empty_or_mem (targetNumber ratioNum ratioDen : Nat)
    (entries : List SCEntry) :
    keysSplitKey targetNumber ratioNum ratioDen entries = [] ∨
      keysSplitKey targetNumber ratioNum ratioDen entries ∈ entries.map SCEntry.key := by
  unfold keysSplitKey
  simp only []
  have hm := keysSplitLoop_skey_mem (((targetNumber * ratioNum) / ratioDen : Nat))
    (targetNumber : Int) entries 0 [] [] false
  set r := keysSplitLoop (((targetNumber * ratioNum) / ratioDen : Nat))
    (targetNumber : Int) entries 0 [] [] false with hr
  by_cases hb : r.2
  · rw [if_pos hb]
    exact hm
  · rw [if_neg hb]
    exact Or.inl rfl

/-! ## Claims C3, C4, C5 -/

/-- C3 (counterexample): the claim says `SizeSplitChecker::SplitKey`
commits (returns the recorded key) exactly when the total accumulated
size reaches the threshold.  On a stream of one entry of size 100 with
threshold 100 and ratio 1/2, the total reaches the threshold and the
first key reaching `threshold × ratio = 50` is `[97]`, so the claimed
behaviour returns `[97]`; the code returns the empty string, because the
`else if` skips the commit check on the very entry that records the
split key and no later entry arrives. -/
theorem sizeSplitKey_claim_counterexample :
    sizeSplitKey 100 1 2 [⟨[97], 100⟩] = [] ∧
    claimedSizeSplitKey 100 1 2 [⟨[97], 100⟩] = [97] ∧
    100 ≤ totalSize [⟨[97], 100⟩] ∧
    sizeSplitKey 100 1 2 [⟨[97], 100⟩] ≠ claimedSizeSplitKey 100 1 2 [⟨[97], 100⟩] := by
  decide

/-- C3 (amended): under the SIZE split policy, `SizeSplitChecker::SplitKey`
records as split key the first key at which the accumulated key+value
size reaches `threshold × split_ratio`, and returns it when the
accumulated size reaches the threshold at some entry *other than the
entry that records the split key*; otherwise it returns the empty
string.  (Encoded keys are nonempty.) -/
theorem sizeSplitKey_characterization (splitSize : Int) (ratioNum ratioDen : Nat)
    (entries : List SCEntry) (hkeys : ∀ e ∈ entries, e.key ≠ []) :
    sizeSplitKey splitSize ratioNum ratioDen entries =
      (if sizeCommit ((splitSize * (ratioNum : Int)).tdiv (ratioDen : Int)) splitSize entries
       then firstReachKey ((splitSize * (ratioNum : Int)).tdiv (ratioDen : Int)) entries
       else []) :=
  sizeSplitKey_eq_spec splitSize ratioNum ratioDen entries hkeys

/-- C3 (witness): the amended characterization applied to a concrete
two-entry stream. -/
theorem sizeSplitKey_characterization_witness :
    sizeSplitKey 100 1 2 [⟨[97], 60⟩, ⟨[98], 60⟩] =
      (if sizeCommit (((100 : Int) * ((1 : Nat) : Int)).tdiv ((2 : Nat) : Int)) 100
          [⟨[97], 60⟩, ⟨[98], 60⟩]
       then firstReachKey (((100 : Int) * ((1 : Nat) : Int)).tdiv ((2 : Nat) : Int))
          [⟨[97], 60⟩, ⟨[98], 60⟩]
       else []) :=
  sizeSplitKey_characterization 100 1 2 [⟨[97], 60⟩, ⟨[98], 60⟩] (by decide)

/-- C4: under the HALF split policy, `HalfSplitChecker::SplitKey`
records the current key as a candidate each time another `chunk_size`
bytes of key+value data have been accumulated (`chunkCandidates`), and,
when the total accumulated size reaches `threshold_size` (and at least
one candidate exists), returns the candidate at index
`len(candidates) / 2`; otherwise it returns the empty string. -/
theorem halfSplitKey_middle_candidate (threshold chunkLimit : Int) (entries : List SCEntry) :
    halfSplitKey threshold chunkLimit entries =
      (if threshold ≤ totalSize entries ∧ chunkCandidates chunkLimit entries 0 ≠ [] then
        (chunkCandidates chunkLimit entries 0).getD
          ((chunkCandidates chunkLimit entries 0).length / 2) []
      else []) :=
  halfSplitKey_eq_spec threshold chunkLimit entries

/-- C5: the split key produced by a split check either is empty (no
split is dispatched) or lies within the region's key range
`[start_key, end_key)`: every checker only ever returns a key of the
merged-iterator stream, which is bounded by the region range, and
`SplitCheckTask::SplitCheck` dispatches a `SplitRegion` request only
when `CheckKeyInRange` passed on the decoded split key. -/
theorem split_key_within_region_range (startKey endKey : Key) (entries : List SCEntry)
    (hrange : ∀ e ∈ entries, startKey ≤ e.key ∧ e.key < endKey)
    (halfTh halfCh sizeTh : Int) (sNum sDen keysN kNum kDen : Nat) (c : SplitCheckCtx) :
    (halfSplitKey halfTh halfCh entries = [] ∨
      (startKey ≤ halfSplitKey halfTh halfCh entries ∧
        halfSplitKey halfTh halfCh entries < endKey)) ∧
    (sizeSplitKey sizeTh sNum sDen entries = [] ∨
      (startKey ≤ sizeSplitKey sizeTh sNum sDen entries ∧
        sizeSplitKey sizeTh sNum sDen entries < endKey)) ∧
    (keysSplitKey keysN kNum kDen entries = [] ∨
      (startKey ≤ keysSplitKey keysN kNum kDen entries ∧
        keysSplitKey keysN kNum kDen entries < endKey)) ∧
    (splitCheckNeedSplit c = true → c.keyInRange = true ∧ c.plainSplitKey ≠ []) := by
  have hmem : ∀ x ∈ entries.map SCEntry.key, startKey ≤ x ∧ x < endKey := by
    intro x hx
    rcases List.mem_map.mp hx with ⟨e, he, rfl⟩
    exact hrange e he
  refine ⟨?_, ?_, ?_, ?_⟩
  · rcases halfSplitKey_empty_or_mem halfTh halfCh entries with h | h
    · exact Or.inl h
    · exact Or.inr (hmem _ h)
  · rcases sizeSplitKey_empty_or_mem sizeTh sNum sDen entries with h | h
    · exact Or.inl h
    · exact Or.inr (hmem _ h)
  · rcases keysSplitKey_empty_or_mem keysN kNum kDen entries with h | h
    · exact Or.inl h
    · exact Or.inr (hmem _ h)
  · intro h
    unfold splitCheckNeedSplit at h
    simp only [Bool.and_eq_true, Bool.not_eq_true', decide_eq_false_iff_not] at h
    exact ⟨h.1.1.1.1.1.1.2, h.1.1.1.1.1.1.1.1⟩

/-- C5 (witness): the range invariant applied to a concrete one-entry
stream and a concrete dispatch context. -/
theorem split_key_within_region_range_witness :
    (halfSplitKey 5 3 [⟨[98], 10⟩] = [] ∨
      (([97] : Key) ≤ halfSplitKey 5 3 [⟨[98], 10⟩] ∧
        halfSplitKey 5 3 [⟨[98], 10⟩] < ([99] : Key))) ∧
    (sizeSplitKey 5 1 2 [⟨[98], 10⟩] = [] ∨
      (([97] : Key) ≤ sizeSplitKey 5 1 2 [⟨[98], 10⟩] ∧
        sizeSplitKey 5 1 2 [⟨[98], 10⟩] < ([99] : Key))) ∧
    (keysSplitKey 3 1 2 [⟨[98], 10⟩] = [] ∨
      (([97] : Key) ≤ keysSplitKey 3 1 2 [⟨[98], 10⟩] ∧
        keysSplitKey 3 1 2 [⟨[98], 10⟩] < ([99] : Key))) ∧
    (splitCheckNeedSplit ⟨[98], true, true, false, false, true, true, false, false⟩ = true →
      SplitCheckCtx.keyInRange ⟨[98], true, true, false, false, true, true, false, false⟩ = true ∧
      SplitCheckCtx.plainSplitKey ⟨[98], true, true, false, false, true, true, false, false⟩ ≠ []) :=
  split_key_within_region_range [97] [99] [⟨[98], 10⟩] (by decide) 5 3 5 1 2 3 1 2
    ⟨[98], true, true, false, false, true, true, false, false⟩

/-! ## Helper lemmas: vector search pipeline -/

theorem postFilterLoop_range (topN : Nat) (passes : Int → Bool) :
    ∀ (l : List Cand) (n : Nat),
      postFilterLoop true topN passes n l = l.filter (fun c => passes c.vid)
  | [], _ => rfl
  | c :: l, n => by
    unfold postFilterLoop
    by_cases hp : passes c.vid
    · simp [hp, postFilterLoop_range topN passes l (n + 1)]
    · simp [hp, postFilterLoop_range topN passes l n]

theorem postFilterLoop_topn (topN : Nat) (passes : Int → Bool) :
    ∀ (l : List Cand) (n : Nat), n < topN →
      postFilterLoop false topN passes n l = (l.filter (fun c => passes c.vid)).take (topN - n)
  | [], n, _ => by simp [postFilterLoop]
  | c :: l, n, hn => by
    unfold postFilterLoop
    by_cases hp : passes c.vid
    · by_cases hb : topN ≤ n + 1
      · have htn : topN - n = 1 := by omega
        simp [hp, hb, htn]
      · have hlt : n + 1 < topN := by omega
        have hrec := postFilterLoop_topn topN passes l (n + 1) hlt
        have htn : topN - n = (topN - (n + 1)) + 1 := by omega
        simp [hp, hb, hrec, htn]
    · simp [hp, postFilterLoop_topn topN passes l n hn]

theorem cappedAppend_eq_take (cap : Nat) :
    ∀ (bs q : List Cand), q.length ≤ cap →
      cappedAppend cap q bs = (q ++ bs).take cap
  | [], q, h => by
    rw [cappedAppend, List.append_nil, List.take_of_length_le h]
  | c :: bs, q, h => by
    rw [cappedAppend]
    by_cases hlt : q.length < cap
    · rw [if_pos hlt, cappedAppend_eq_take cap bs (q ++ [c]) (by simp; omega)]
      congr 1
      simp
    · rw [if_neg hlt]
      have hq : cap ≤ q.length := not_lt.mp hlt
      rw [List.take_append_of_le_length hq, List.take_of_length_le h]

theorem mem_zipWith {α : Type} {f : α → α → α} :
    ∀ {as bs : List α} {x : α}, x ∈ List.zipWith f as bs →
      ∃ a ∈ as, ∃ b ∈ bs, x = f a b
  | [], _, x, hx => by simp at hx
  | _ :: _, [], x, hx => by simp at hx
  | a :: as, b :: bs, x, hx => by
    rw [List.zipWith_cons_cons] at hx
    rcases List.mem_cons.mp hx with h | h
    · exact ⟨a, List.mem_cons_self _ _, b, List.mem_cons_self _ _, h⟩
    · rcases mem_zipWith h with ⟨a', ha', b', hb', hx'⟩
      exact ⟨a', List.mem_cons_of_mem _ ha', b', List.mem_cons_of_mem _ hb', hx'⟩

theorem bruteForceRangeFold_invariant (cap : Nat) :
    ∀ (batches : List (Option (List (List Cand)))) (st : VStatus × List (List Cand)),
      (∀ b ∈ batches, b ≠ none) → st.1 = VStatus.ok → (∀ l ∈ st.2, l.length ≤ cap) →
      (batches.foldl (bruteForceRangeStep cap) st).1 = VStatus.ok ∧
      ∀ l ∈ (batches.foldl (bruteForceRangeStep cap) st).2, l.length ≤ cap
  | [], st, _, hok, hlen => ⟨hok, hlen⟩
  | b :: batches, st, hall, hok, hlen => by
    rw [List.foldl_cons]
    rcases hb : b with _ | bres
    · exact absurd hb (hall b (List.mem_cons_self _ _))
    · have hstep : bruteForceRangeStep cap st (some bres) =
          (VStatus.ok, st.2.zipWith (cappedAppend cap) bres) := by
        unfold bruteForceRangeStep
        rw [hok]
      rw [hstep]
      apply bruteForceRangeFold_invariant cap batches _
        (fun x hx => hall x (List.mem_cons_of_mem _ hx)) rfl
      intro l hl
      rcases mem_zipWith hl with ⟨q, hq, bs, _, rfl⟩
      rw [cappedAppend_eq_take cap bs q (hlen q hq)]
      exact List.length_take_le _ _

theorem scalarAttach_vid (scalarCF : Int → Option Value) (v : VWID) :
    (scalarAttach scalarCF v).vid = v.vid := by
  unfold scalarAttach
  by_cases h : v = emptyVWID
  · rw [if_pos h]
  · rw [if_neg h]
    cases scalarCF v.vid <;> rfl

theorem tableAttach_vid (tableCF : Int → Option Value) (v : VWID) :
    (tableAttach tableCF v).vid = v.vid := by
  unfold tableAttach
  by_cases h : v = emptyVWID
  · rw [if_pos h]
  · rw [if_neg h]
    cases tableCF v.vid <;> rfl

theorem expectedBatchEntry_vid (dataCF scalarCF tableCF : Int → Option Value)
    (withVec withScalar withTable : Bool) (i : Int) :
    (expectedBatchEntry dataCF scalarCF tableCF withVec withScalar withTable i).vid =
      ((queryVectorWithId dataCF withVec i).getD emptyVWID).vid := by
  unfold expectedBatchEntry
  cases withScalar <;> cases withTable <;>
    simp [scalarAttach_vid, tableAttach_vid]

/-! ## Claims C6, C7, C8, C9, C10 -/

/-- C6: for a batch-search request with a scalar post-filter
(`SCALAR_FILTER` with `QUERY_POST`, carrying a coprocessor expression or
an equality map), `SearchVector` first asks the index for
`top_n × 10` candidates per query, then evaluates each candidate's
scalar record and keeps the first `top_n` passing candidates - unless
range search is enabled, in which case all passing candidates are
kept. -/
theorem searchVector_scalar_post (queries : List QueryVec) (p : SearchParam)
    (search : Nat → List (List Cand)) (passes : Int → Bool)
    (otherResults : List (List Cand))
    (hq : queries ≠ []) (hf : p.filter = VFilter.scalarFilter)
    (ht : p.filterType = VFilterType.queryPost)
    (hpred : p.hasCoproc = true ∨ (queries.headD ⟨0⟩).scalarDataSize ≠ 0)
    (htop : 1 ≤ p.topN) :
    searchVector queries p search passes otherResults =
      (VStatus.ok, (search (p.topN * 10)).map (fun l =>
        if p.enableRange then l.filter (fun c => passes c.vid)
        else (l.filter (fun c => passes c.vid)).take p.topN)) := by
  unfold searchVector
  rw [if_neg (by simp [List.isEmpty_iff, hq]), if_pos ⟨hf, ht⟩,
    if_neg (fun hcon => by
      rcases hpred with h | h
      · exact hcon.2 h
      · exact h hcon.1)]
  congr 1
  apply List.map_congr_left
  intro l _
  cases he : p.enableRange
  · have h0 : (0 : Nat) < p.topN := htop
    rw [postFilterLoop_topn p.topN passes l 0 h0]
    simp
  · rw [postFilterLoop_range p.topN passes l 0]
    simp

/-- C6 (witness): the post-filter pipeline on one concrete query with a
coprocessor filter. -/
theorem searchVector_scalar_post_witness :
    searchVector [⟨0⟩] ⟨2, false, true, VFilter.scalarFilter, VFilterType.queryPost⟩
      (fun _ => [[⟨1, 1⟩, ⟨2, 2⟩, ⟨3, 3⟩]]) (fun i => decide (i ≠ 2)) [] =
      (VStatus.ok, ((fun (_ : Nat) => [[⟨1, 1⟩, ⟨2, 2⟩, ⟨3, 3⟩]]) (2 * 10)).map
        (fun (l : List Cand) =>
          if false then l.filter (fun c => decide (c.vid ≠ 2))
          else (l.filter (fun c => decide (c.vid ≠ 2))).take 2)) :=
  searchVector_scalar_post [⟨0⟩] ⟨2, false, true, VFilter.scalarFilter, VFilterType.queryPost⟩
    (fun _ => [[⟨1, 1⟩, ⟨2, 2⟩, ⟨3, 3⟩]]) (fun i => decide (i ≠ 2)) []
    (by decide) rfl rfl (Or.inl rfl) (by decide)

/-- C7: `BruteForceRangeSearch` caps every per-query result list at
`FLAGS_vector_index_max_range_search_result_count`; the capped merge is
exactly truncation of the concatenated in-radius candidates, and
exceeding the cap still yields a success status (only a warning is
logged). -/
theorem bruteForceRangeSearch_capped (cap numQueries : Nat)
    (batches : List (Option (List (List Cand))))
    (hall : ∀ b ∈ batches, b ≠ none) :
    (bruteForceRangeSearch cap numQueries batches).1 = VStatus.ok ∧
    (∀ l ∈ (bruteForceRangeSearch cap numQueries batches).2, l.length ≤ cap) ∧
    (∀ (q bs : List Cand), q.length ≤ cap → cappedAppend cap q bs = (q ++ bs).take cap) := by
  have h := bruteForceRangeFold_invariant cap batches (VStatus.ok, List.replicate numQueries [])
    hall rfl (by
      intro l hl
      rw [List.eq_of_mem_replicate hl]
      simp)
  exact ⟨h.1, h.2, fun q bs hq => cappedAppend_eq_take cap bs q hq⟩

/-- C7 (witness): the cap invariant at the default cap of 1024, on one
query and one batch. -/
theorem bruteForceRangeSearch_capped_witness :
    (bruteForceRangeSearch vectorIndexMaxRangeSearchResultCount 1
      [some [[⟨1, 1⟩, ⟨2, 2⟩]]]).1 = VStatus.ok ∧
    ∀ l ∈ (bruteForceRangeSearch vectorIndexMaxRangeSearchResultCount 1
      [some [[⟨1, 1⟩, ⟨2, 2⟩]]]).2, l.length ≤ vectorIndexMaxRangeSearchResultCount :=
  ⟨(bruteForceRangeSearch_capped vectorIndexMaxRangeSearchResultCount 1
      [some [[⟨1, 1⟩, ⟨2, 2⟩]]] (by decide)).1,
   (bruteForceRangeSearch_capped vectorIndexMaxRangeSearchResultCount 1
      [some [[⟨1, 1⟩, ⟨2, 2⟩]]] (by decide)).2.1⟩

/-- C8: a batch-search request with an empty query-vector list returns a
success status and an empty result list, not an error (`SearchVector`
returns immediately after logging a warning). -/
theorem searchVector_empty_queries (p : SearchParam) (search : Nat → List (List Cand))
    (passes : Int → Bool) (otherResults : List (List Cand)) :
    searchVector [] p search passes otherResults = (VStatus.ok, []) := rfl

/-- C9: for a key that already exists in the store, `KvPutIfAbsent`
returns a success status with `key_state = false` and leaves the store
unchanged (the internal transaction is rolled back); the existing-key
case is never reported as an error status. -/
theorem kvPutIfAbsent_existing (store : Store) (k : Key) (v v0 : Value)
    (hk : k ≠ []) (hget : storeGet store k = some v0) :
    kvPutIfAbsent store k v = (KvStatus.ok, false, store) := by
  unfold kvPutIfAbsent kvCompareAndSetInternal
  rw [if_neg hk, hget]
  simp

/-- C9 (witness): putting an already-present key on a concrete store. -/
theorem kvPutIfAbsent_existing_witness :
    kvPutIfAbsent [([1], [2])] [1] [9] = (KvStatus.ok, false, [([1], [2])]) :=
  kvPutIfAbsent_existing [([1], [2])] [1] [9] [2] (by decide) (by decide)

/-- C10: `VectorBatchQuery` always returns a success status; the output
has exactly one entry per requested vector id, in request order
(`expectedBatchEntry`); a requested id missing from the data CF
produces the empty placeholder record at its position, and a present id
produces a record carrying that id. -/
theorem vectorBatchQuery_spec (dataCF scalarCF tableCF : Int → Option Value)
    (withVec withScalar withTable : Bool) (ids : List Int) :
    (vectorBatchQuery dataCF scalarCF tableCF withVec withScalar withTable ids).1 =
      VStatus.ok ∧
    (vectorBatchQuery dataCF scalarCF tableCF withVec withScalar withTable ids).2 =
      ids.map (expectedBatchEntry dataCF scalarCF tableCF withVec withScalar withTable) ∧
    (∀ i ∈ ids, dataCF i = none →
      expectedBatchEntry dataCF scalarCF tableCF withVec withScalar withTable i = emptyVWID) ∧
    (∀ i ∈ ids, ∀ payload, dataCF i = some payload →
      (expectedBatchEntry dataCF scalarCF tableCF withVec withScalar withTable i).vid = i) := by
  refine ⟨rfl, ?_, ?_, ?_⟩
  · unfold vectorBatchQuery expectedBatchEntry
    cases withScalar <;> cases withTable <;> simp [List.map_map, Function.comp]
  · intro i _ hnone
    unfold expectedBatchEntry queryVectorWithId
    rw [hnone]
    cases withScalar <;> cases withTable <;>
      simp [scalarAttach, tableAttach]
  · intro i _ payload hsome
    rw [expectedBatchEntry_vid]
    unfold queryVectorWithId
    rw [hsome]
    rfl

/-- C10 (witness): a concrete batch over ids 1 (present) and 2
(missing). -/
theorem vectorBatchQuery_spec_witness :
    (vectorBatchQuery (fun i => if i = 1 then some [7] else none) (fun _ => some [8])
      (fun _ => none) true true false [1, 2]).1 = VStatus.ok ∧
    (vectorBatchQuery (fun i => if i = 1 then some [7] else none) (fun _ => some [8])
      (fun _ => none) true true false [1, 2]).2 =
      [1, 2].map (expectedBatchEntry (fun i => if i = 1 then some [7] else none)
        (fun _ => some [8]) (fun _ => none) true true false) ∧
    expectedBatchEntry (fun i => if i = 1 then some [7] else none) (fun _ => some [8])
      (fun _ => none) true true false 2 = emptyVWID :=
  ⟨(vectorBatchQuery_spec (fun i => if i = 1 then some [7] else none) (fun _ => some [8])
      (fun _ => none) true true false [1, 2]).1,
   (vectorBatchQuery_spec (fun i => if i = 1 then some [7] else none) (fun _ => some [8])
      (fun _ => none) true true false [1, 2]).2.1,
   (vectorBatchQuery_spec (fun i => if i = 1 then some [7] else none) (fun _ => some [8])
      (fun _ => none) true true false [1, 2]).2.2.1 2 (by decide) (by decide)⟩


/-! ## Helper lemmas and claim C2: timestamp provider -/

theorem listGetTs_stale_nil (af : Int) (head : BatchTs) (hst : head.stale = true) :
    batchTsListGetTs af head [] = (0, head, []) := by
  unfold batchTsListGetTs
  simp [hst]

theorem listGetTs_stale_cons (af : Int) (head next : BatchTs) (rest' : List BatchTs)
    (hst : head.stale = true) :
    batchTsListGetTs af head (next :: rest') = batchTsListGetTs af next rest' := by
  conv_lhs => rw [batchTsListGetTs]
  simp [hst]

theorem listGetTs_exhausted_nil (af : Int) (head : BatchTs) (hst : head.stale = false)
    (hlt : ¬head.cur < head.endTs) :
    batchTsListGetTs af head [] = (0, head, []) := by
  unfold batchTsListGetTs batchTsGet
  simp [hst, hlt]

theorem listGetTs_exhausted_cons (af : Int) (head next : BatchTs) (rest' : List BatchTs)
    (hst : head.stale = false) (hlt : ¬head.cur < head.endTs) :
    batchTsListGetTs af head (next :: rest') = batchTsListGetTs af next rest' := by
  conv_lhs => rw [batchTsListGetTs]
  simp [batchTsGet, hst, hlt]

theorem listGetTs_hit (af : Int) (head : BatchTs) (rest : List BatchTs)
    (hst : head.stale = false) (hlt : head.cur < head.endTs)
    (haf : af < head.cur) (h0 : 0 < head.cur) :
    batchTsListGetTs af head rest =
      (head.cur, { head with cur := head.cur + 1 }, rest) := by
  unfold batchTsListGetTs batchTsGet
  simp [hst, hlt, haf, h0]

theorem listGetTs_miss_nil (af : Int) (head : BatchTs)
    (hst : head.stale = false) (hlt : head.cur < head.endTs)
    (hng : ¬(af < head.cur ∧ 0 < head.cur)) :
    batchTsListGetTs af head [] = (0, { head with cur := head.cur + 1 }, []) := by
  unfold batchTsListGetTs batchTsGet
  by_cases haf : af < head.cur <;> by_cases h0 : (0 : Int) < head.cur <;>
    simp_all

theorem listGetTs_miss_cons (af : Int) (head next : BatchTs) (rest' : List BatchTs)
    (hst : head.stale = false) (hlt : head.cur < head.endTs)
    (hng : ¬(af < head.cur ∧ 0 < head.cur)) :
    batchTsListGetTs af head (next :: rest') = batchTsListGetTs af next rest' := by
  conv_lhs => rw [batchTsListGetTs]
  by_cases haf : af < head.cur <;> by_cases h0 : (0 : Int) < head.cur <;>
    simp_all [batchTsGet]


theorem wfChain_mono : ∀ (l : List BatchTs) (lb lb2 : Int), lb2 ≤ lb → wfChain lb l →
    wfChain lb2 l
  | [], _, _, _, _ => trivial
  | _ :: _, _, _, h, hwf => ⟨le_trans h hwf.1, hwf.2.1, hwf.2.2⟩

theorem wfChain_append : ∀ (l : List BatchTs) (lb : Int) (b : BatchTs),
    wfChain lb l → chainUB lb l ≤ b.cur → b.cur ≤ b.endTs → wfChain lb (l ++ [b])
  | [], _, _, _, hub, hce => ⟨hub, hce, trivial⟩
  | x :: l, _, b, hwf, hub, hce => ⟨hwf.1, hwf.2.1, wfChain_append l x.endTs b hwf.2.2 hub hce⟩

theorem chainUB_append : ∀ (l : List BatchTs) (lb : Int) (b : BatchTs),
    chainUB lb (l ++ [b]) = b.endTs
  | [], _, _ => rfl
  | x :: l, _, b => chainUB_append l x.endTs b

theorem batchTsListGetTs_wf (af : Int) :
    ∀ (rest : List BatchTs) (head : BatchTs) (lb : Int), wfChain lb (head :: rest) →
      (((batchTsListGetTs af head rest).1 = 0 ∧
          wfChain lb ((batchTsListGetTs af head rest).2.1 ::
            (batchTsListGetTs af head rest).2.2)) ∨
        (0 < (batchTsListGetTs af head rest).1 ∧ af < (batchTsListGetTs af head rest).1 ∧
          lb ≤ (batchTsListGetTs af head rest).1 ∧
          wfChain ((batchTsListGetTs af head rest).1 + 1)
            ((batchTsListGetTs af head rest).2.1 :: (batchTsListGetTs af head rest).2.2))) ∧
      chainUB (batchTsListGetTs af head rest).2.1.endTs (batchTsListGetTs af head rest).2.2 =
        chainUB head.endTs rest
  | [], head, lb, hwf => by
    by_cases hst : head.stale = true
    · rw [listGetTs_stale_nil af head hst]
      exact ⟨Or.inl ⟨rfl, hwf⟩, rfl⟩
    · have hst' : head.stale = false := by
        cases h : head.stale
        · rfl
        · exact absurd h hst
      by_cases hlt : head.cur < head.endTs
      · by_cases hhit : af < head.cur ∧ 0 < head.cur
        · rw [listGetTs_hit af head [] hst' hlt hhit.1 hhit.2]
          exact ⟨Or.inr ⟨hhit.2, hhit.1, hwf.1,
            le_refl _, Int.add_one_le_iff.mpr hlt, trivial⟩, rfl⟩
        · rw [listGetTs_miss_nil af head hst' hlt hhit]
          exact ⟨Or.inl ⟨rfl, le_trans hwf.1 (le_of_lt (lt_add_one _)),
            Int.add_one_le_iff.mpr hlt, trivial⟩, rfl⟩
      · rw [listGetTs_exhausted_nil af head hst' hlt]
        exact ⟨Or.inl ⟨rfl, hwf⟩, rfl⟩
  | next :: rest', head, lb, hwf => by
    have hnext : wfChain head.endTs (next :: rest') := hwf.2.2
    have hlbe : lb ≤ head.endTs := le_trans hwf.1 hwf.2.1
    have hrec : ∀ _ : Unit,
        (((batchTsListGetTs af next rest').1 = 0 ∧
            wfChain lb ((batchTsListGetTs af next rest').2.1 ::
              (batchTsListGetTs af next rest').2.2)) ∨
          (0 < (batchTsListGetTs af next rest').1 ∧ af < (batchTsListGetTs af next rest').1 ∧
            lb ≤ (batchTsListGetTs af next rest').1 ∧
            wfChain ((batchTsListGetTs af next rest').1 + 1)
              ((batchTsListGetTs af next rest').2.1 :: (batchTsListGetTs af next rest').2.2))) ∧
        chainUB (batchTsListGetTs af next rest').2.1.endTs
            (batchTsListGetTs af next rest').2.2 =
          chainUB head.endTs (next :: rest') := by
      intro _
      have ih := batchTsListGetTs_wf af rest' next head.endTs hnext
      refine ⟨?_, ih.2⟩
      rcases ih.1 with ⟨h0, hw⟩ | ⟨h1, h2, h3, hw⟩
      · exact Or.inl ⟨h0, wfChain_mono _ _ _ hlbe hw⟩
      · exact Or.inr ⟨h1, h2, le_trans hlbe h3, hw⟩
    by_cases hst : head.stale = true
    · rw [listGetTs_stale_cons af head next rest' hst]
      exact hrec ()
    · have hst' : head.stale = false := by
        cases h : head.stale
        · rfl
        · exact absurd h hst
      by_cases hlt : head.cur < head.endTs
      · by_cases hhit : af < head.cur ∧ 0 < head.cur
        · rw [listGetTs_hit af head (next :: rest') hst' hlt hhit.1 hhit.2]
          exact ⟨Or.inr ⟨hhit.2, hhit.1, hwf.1,
            le_refl _, Int.add_one_le_iff.mpr hlt, hwf.2.2⟩, rfl⟩
        · rw [listGetTs_miss_cons af head next rest' hst' hlt hhit]
          exact hrec ()
      · rw [listGetTs_exhausted_cons af head next rest' hst' hlt]
        exact hrec ()


theorem batchTsListGetTs_val (af : Int) :
    ∀ (rest : List BatchTs) (head : BatchTs),
      (batchTsListGetTs af head rest).1 = 0 ∨
      (af < (batchTsListGetTs af head rest).1 ∧ 0 < (batchTsListGetTs af head rest).1)
  | [], head => by
    unfold batchTsListGetTs
    by_cases hg : ¬head.stale = true ∧
        af < (if head.stale = true then (0, head) else batchTsGet head).1 ∧
        0 < (if head.stale = true then (0, head) else batchTsGet head).1
    · rw [if_pos hg]
      exact Or.inr ⟨hg.2.1, hg.2.2⟩
    · rw [if_neg hg]
      exact Or.inl rfl
  | next :: rest', head => by
    unfold batchTsListGetTs
    by_cases hg : ¬head.stale = true ∧
        af < (if head.stale = true then (0, head) else batchTsGet head).1 ∧
        0 < (if head.stale = true then (0, head) else batchTsGet head).1
    · rw [if_pos hg]
      exact Or.inr ⟨hg.2.1, hg.2.2⟩
    · rw [if_neg hg]
      exact batchTsListGetTs_val af rest' next

theorem runTsOps_strict :
    ∀ (ops : List TsOp) (head : BatchTs) (rest : List BatchTs) (lb : Int),
      wfChain lb (head :: rest) → tsOpsWF (chainUB head.endTs rest) ops →
      (runTsOps ops head rest).Pairwise (· < ·) ∧ ∀ x ∈ runTsOps ops head rest, lb ≤ x
  | [], head, rest, lb, _, _ => by
    constructor
    · exact List.Pairwise.nil
    · intro x hx
      simp [runTsOps] at hx
  | TsOp.getTs af :: ops, head, rest, lb, hwf, hops => by
    have hA := batchTsListGetTs_wf af rest head lb hwf
    have hops' : tsOpsWF (chainUB (batchTsListGetTs af head rest).2.1.endTs
        (batchTsListGetTs af head rest).2.2) ops := by
      rw [hA.2]
      exact hops
    simp only [runTsOps]
    by_cases h0 : (batchTsListGetTs af head rest).1 > 0
    · rcases hA.1 with ⟨hz, _⟩ | ⟨_, _, hlb, hw⟩
      · rw [hz] at h0
        exact absurd h0 (lt_irrefl 0)
      · rw [if_pos h0]
        have ih := runTsOps_strict ops (batchTsListGetTs af head rest).2.1
          (batchTsListGetTs af head rest).2.2 ((batchTsListGetTs af head rest).1 + 1) hw hops'
        constructor
        · rw [List.pairwise_cons]
          exact ⟨fun x hx => lt_of_lt_of_le (lt_add_one _) (ih.2 x hx), ih.1⟩
        · intro x hx
          rcases List.mem_cons.mp hx with rfl | hx'
          · exact hlb
          · exact le_trans hlb (le_trans (le_of_lt (lt_add_one _)) (ih.2 x hx'))
    · rcases hA.1 with ⟨_, hw⟩ | ⟨hp, _, _, _⟩
      · rw [if_neg h0]
        exact runTsOps_strict ops (batchTsListGetTs af head rest).2.1
          (batchTsListGetTs af head rest).2.2 lb hw hops'
      · exact absurd hp h0
  | TsOp.push b :: ops, head, rest, lb, hwf, hops => by
    have hub : chainUB head.endTs rest ≤ b.cur := hops.1
    have hce : b.cur ≤ b.endTs := hops.2.1
    have hwf' : wfChain lb (head :: (rest ++ [b])) :=
      wfChain_append (head :: rest) lb b hwf hub hce
    have hops' : tsOpsWF (chainUB head.endTs (rest ++ [b])) ops := by
      rw [chainUB_append]
      exact hops.2.2
    simp only [runTsOps]
    exact runTsOps_strict ops head (rest ++ [b]) lb hwf' hops'


theorem tsProviderGetTsAux_val (renew : Nat → Option BatchTs) (af : Int) :
    ∀ (fuel attempt : Nat) (head : BatchTs) (rest : List BatchTs),
      (tsProviderGetTsAux renew af fuel attempt head rest).1 = 0 ∨
      (af < (tsProviderGetTsAux renew af fuel attempt head rest).1 ∧
        0 < (tsProviderGetTsAux renew af fuel attempt head rest).1)
  | 0, _, _, _ => Or.inl rfl
  | fuel + 1, attempt, head, rest => by
    simp only [tsProviderGetTsAux]
    by_cases h0 : (batchTsListGetTs af head rest).1 > 0
    · rw [if_pos h0]
      rcases batchTsListGetTs_val af rest head with hz | hp
      · rw [hz] at h0
        exact absurd h0 (lt_irrefl 0)
      · exact Or.inr hp
    · rw [if_neg h0]
      cases renew attempt
      · exact tsProviderGetTsAux_val renew af fuel (attempt + 1) _ _
      · exact tsProviderGetTsAux_val renew af fuel (attempt + 1) _ _

theorem tsProviderGetTs_val (renew : Nat → Option BatchTs) (af : Int)
    (head : BatchTs) (rest : List BatchTs) :
    tsProviderGetTs renew af head rest = 0 ∨
    (af < tsProviderGetTs renew af head rest ∧ 0 < tsProviderGetTs renew af head rest) :=
  tsProviderGetTsAux_val renew af tsProviderMaxRetryNum 0 head rest

theorem tsProviderGetTsAux_all_fail (renew : Nat → Option BatchTs) (af : Int)
    (Bad : BatchTs × List BatchTs → Prop)
    (hfail : ∀ h t, Bad (h, t) → (batchTsListGetTs af h t).1 = 0)
    (hstep : ∀ h t n, Bad (h, t) →
      Bad ((batchTsListGetTs af h t).2.1,
        (batchTsListGetTs af h t).2.2 ++ (renew n).toList)) :
    ∀ (fuel attempt : Nat) (head : BatchTs) (rest : List BatchTs), Bad (head, rest) →
      (tsProviderGetTsAux renew af fuel attempt head rest).1 = 0
  | 0, _, _, _, _ => rfl
  | fuel + 1, attempt, head, rest, hbad => by
    simp only [tsProviderGetTsAux]
    have hz : (batchTsListGetTs af head rest).1 = 0 := hfail head rest hbad
    rw [if_neg (by rw [hz]; exact lt_irrefl 0)]
    have hb' := hstep head rest attempt hbad
    cases hr : renew attempt
    · rw [hr] at hb'
      simp only [Option.toList, List.append_nil] at hb'
      exact tsProviderGetTsAux_all_fail renew af Bad hfail hstep fuel (attempt + 1) _ _ hb'
    · rw [hr] at hb'
      simp only [Option.toList] at hb'
      exact tsProviderGetTsAux_all_fail renew af Bad hfail hstep fuel (attempt + 1) _ _ hb'


/-- C2: `TsProvider::GetTs(after_ts)` returns either 0 or a value
strictly greater than `after_ts` (and positive); along any sequence of
`GetTs` and `Push` operations starting from a well-formed batch list and
pushing only TSO-monotone batches, the successful results are strictly
increasing, so no two successful calls return the same value; and when
every attempt fails (an invariant `Bad` forces every `BatchTsList::GetTs`
to yield 0), `TsProvider::GetTs` returns 0 after
`FLAGS_ts_provider_max_retry_num` attempts. -/
theorem tsProvider_get_ts_properties
    (renew : Nat → Option BatchTs) (afterTs : Int) (head : BatchTs) (rest : List BatchTs)
    (ops : List TsOp) (lb : Int)
    (hwf : wfChain lb (head :: rest)) (hops : tsOpsWF (chainUB head.endTs rest) ops) :
    (tsProviderGetTs renew afterTs head rest = 0 ∨
      (afterTs < tsProviderGetTs renew afterTs head rest ∧
        0 < tsProviderGetTs renew afterTs head rest)) ∧
    (runTsOps ops head rest).Pairwise (· < ·) ∧
    (runTsOps ops head rest).Nodup ∧
    (∀ (Bad : BatchTs × List BatchTs → Prop),
      (∀ h t, Bad (h, t) → (batchTsListGetTs afterTs h t).1 = 0) →
      (∀ h t n, Bad (h, t) →
        Bad ((batchTsListGetTs afterTs h t).2.1,
          (batchTsListGetTs afterTs h t).2.2 ++ (renew n).toList)) →
      Bad (head, rest) → tsProviderGetTs renew afterTs head rest = 0) := by
  have hs := runTsOps_strict ops head rest lb hwf hops
  refine ⟨tsProviderGetTs_val renew afterTs head rest, hs.1, ?_, ?_⟩
  · exact List.Pairwise.imp (fun hxy => ne_of_lt hxy) hs.1
  · intro Bad hfail hstep hbad
    exact tsProviderGetTsAux_all_fail renew afterTs Bad hfail hstep
      tsProviderMaxRetryNum 0 head rest hbad

/-- C2 (witness): the properties on a concrete batch list, trace and an
always-failing provider state. -/
theorem tsProvider_get_ts_properties_witness :
    (tsProviderGetTs (fun _ => none) 0 ⟨5, 7, false⟩ [] = 0 ∨
      (0 < tsProviderGetTs (fun _ => none) 0 ⟨5, 7, false⟩ [] ∧
        0 < tsProviderGetTs (fun _ => none) 0 ⟨5, 7, false⟩ [])) ∧
    (runTsOps [TsOp.getTs 0, TsOp.push ⟨10, 12, false⟩, TsOp.getTs 0]
      ⟨5, 7, false⟩ []).Nodup ∧
    tsProviderGetTs (fun _ => none) 0 ⟨0, 0, false⟩ [] = 0 := by
  have h1 := tsProvider_get_ts_properties (fun _ => none) 0 ⟨5, 7, false⟩ []
    [TsOp.getTs 0, TsOp.push ⟨10, 12, false⟩, TsOp.getTs 0] 0
    ⟨by decide, by decide, trivial⟩ ⟨by decide, by decide, trivial⟩
  have h2 := tsProvider_get_ts_properties (fun _ => none) 0 ⟨0, 0, false⟩ [] [] 0
    ⟨by decide, by decide, trivial⟩ trivial
  refine ⟨h1.1, h1.2.2.1, ?_⟩
  apply h2.2.2.2 (fun st => st = (⟨0, 0, false⟩, []))
  · intro h t heq
    have hh : h = ⟨0, 0, false⟩ := congrArg Prod.fst heq
    have ht : t = [] := congrArg Prod.snd heq
    subst hh
    subst ht
    decide
  · intro h t n heq
    have hh : h = ⟨0, 0, false⟩ := congrArg Prod.fst heq
    have ht : t = [] := congrArg Prod.snd heq
    subst hh
    subst ht
    have hn : ((fun (_ : Nat) => (none : Option BatchTs)) n) = none := rfl
    rw [hn]
    decide
  · rfl


end DingoStore
namespace DingoStore

theorem orderedInsert_of_forall_not {α : Type} (r : α → α → Prop) [DecidableRel r] (c : α) :
    ∀ (l : List α), (∀ b ∈ l, ¬ r c b) → l.orderedInsert r c = l ++ [c]
  | [], _ => rfl
  | b :: l, h => by
    rw [List.orderedInsert, if_neg (h b (List.mem_cons_self b l)),
      orderedInsert_of_forall_not r c l (fun x hx => h x (List.mem_cons_of_mem b hx))]
    rfl

theorem orderedInsert_append_left {α : Type} (r : α → α → Prop) [DecidableRel r] (c : α) :
    ∀ (t s : List α), (∃ b ∈ t, r c b) → (t ++ s).orderedInsert r c = t.orderedInsert r c ++ s
  | [], s, hex => by
    rcases hex with ⟨b, hb, _⟩
    simp at hb
  | b :: t, s, hex => by
    by_cases hcb : r c b
    · rw [List.cons_append, List.orderedInsert, if_pos hcb, List.orderedInsert, if_pos hcb]
      rfl
    · rcases hex with ⟨b', hb', hrb'⟩
      rcases List.mem_cons.mp hb' with rfl | hb''
      · exact absurd hrb' hcb
      · rw [List.cons_append, List.orderedInsert, if_neg hcb, List.orderedInsert, if_neg hcb,
          orderedInsert_append_left r c t s ⟨b', hb'', hrb'⟩]
        rfl

theorem orderedInsert_append_right {α : Type} (r : α → α → Prop) [DecidableRel r] (c : α) :
    ∀ (t s : List α), (∀ b ∈ t, ¬ r c b) → (t ++ s).orderedInsert r c = t ++ s.orderedInsert r c
  | [], s, _ => rfl
  | b :: t, s, h => by
    rw [List.cons_append, List.orderedInsert, if_neg (h b (List.mem_cons_self b t)),
      orderedInsert_append_right r c t s (fun x hx => h x (List.mem_cons_of_mem b hx))]
    rfl

theorem take_orderedInsert_of_forall_not {α : Type} (r : α → α → Prop) [DecidableRel r] (c : α) :
    ∀ (l : List α) (k : Nat), k ≤ l.length → (∀ b ∈ l.take k, ¬ r c b) →
      (l.orderedInsert r c).take k = l.take k
  | l, 0, _, _ => by simp
  | [], k + 1, hk, _ => by simp at hk
  | b :: l, k + 1, hk, h => by
    have hcb : ¬ r c b := h b (by simp [List.take_succ_cons])
    rw [List.orderedInsert, if_neg hcb, List.take_succ_cons, List.take_succ_cons,
      take_orderedInsert_of_forall_not r c l k (by simpa using hk)
        (fun x hx => h x (by rw [List.take_succ_cons]; exact List.mem_cons_of_mem b hx))]

end DingoStore
namespace DingoStore

theorem chunksAux_join (batchCount : Nat) :
    ∀ (l acc : List Cand), (chunksAux batchCount l acc).flatten = acc ++ l
  | [], acc => by
    unfold chunksAux
    by_cases h : acc.isEmpty
    · rw [if_pos h]
      rw [List.isEmpty_iff] at h
      simp [h]
    · rw [if_neg h]
      simp
  | x :: xs, acc => by
    unfold chunksAux
    by_cases h : (acc ++ [x]).length = batchCount
    · rw [if_pos h]
      rw [List.flatten_cons, chunksAux_join batchCount xs []]
      simp
    · rw [if_neg h, chunksAux_join batchCount xs (acc ++ [x])]
      simp

theorem chunks_flatten (batchCount : Nat) (l : List Cand) :
    (chunks batchCount l).flatten = l :=
  chunksAux_join batchCount l []

theorem foldl_foldl_flatten {α β : Type} (f : β → α → β) :
    ∀ (bss : List (List α)) (q : β),
      bss.foldl (fun q bs => bs.foldl f q) q = (bss.flatten).foldl f q
  | [], q => rfl
  | bs :: bss, q => by
    rw [List.foldl_cons, List.flatten_cons, List.foldl_append, foldl_foldl_flatten f bss]

theorem sort_congr_of_perm {l1 l2 : List Cand} (h : List.Perm l1 l2) :
    l1.insertionSort candLe = l2.insertionSort candLe :=
  List.eq_of_perm_of_sorted
    (((List.perm_insertionSort candLe l1).trans h).trans
      (List.perm_insertionSort candLe l2).symm)
    (List.sorted_insertionSort candLe l1) (List.sorted_insertionSort candLe l2)

theorem indexSearch_congr_of_perm (k : Nat) {l1 l2 : List Cand} (h : List.Perm l1 l2) :
    indexSearch k l1 = indexSearch k l2 := by
  unfold indexSearch
  rw [sort_congr_of_perm h]

theorem sort_append_singleton (s : List Cand) (c : Cand) :
    (s ++ [c]).insertionSort candLe = (s.insertionSort candLe).orderedInsert candLe c :=
  List.eq_of_perm_of_sorted
    (((List.perm_insertionSort candLe (s ++ [c])).trans
        (List.perm_append_singleton c s)).trans
      ((((List.perm_insertionSort candLe s).symm).cons c).trans
        (List.perm_orderedInsert candLe c (s.insertionSort candLe)).symm))
    (List.sorted_insertionSort candLe (s ++ [c]))
    ((List.sorted_insertionSort candLe s).orderedInsert c _)

end DingoStore
namespace DingoStore

theorem indexSearch_sorted (k : Nat) (l : List Cand) :
    List.Sorted candLe (indexSearch k l) :=
  List.Pairwise.sublist (List.take_sublist k _) (List.sorted_insertionSort candLe l)

theorem sorted_all_le_getLast :
    ∀ (q : List Cand) (h : q ≠ []), List.Sorted candLe q →
      ∀ b ∈ q, candLe b (q.getLast h) := by
  intro q h hs b hb
  have hd : q.dropLast ++ [q.getLast h] = q := List.dropLast_append_getLast h
  rw [← hd] at hs hb
  rcases List.mem_append.mp hb with h1 | h1
  · exact (List.pairwise_append.mp hs).2.2 b h1 _ (by simp)
  · rw [List.mem_singleton.mp h1]
    exact Or.inr ⟨rfl, le_refl _⟩

theorem take_append_len {α : Type} (l1 l2 : List α) (n : Nat) (h : l1.length = n) :
    (l1 ++ l2).take n = l1 := by
  subst h
  exact List.take_left _ _

theorem take_append_len_add {α : Type} (l1 l2 : List α) (n i : Nat) (h : l1.length = n) :
    (l1 ++ l2).take (n + i) = l1 ++ l2.take i := by
  subst h
  exact List.take_append _

theorem boundedInsert_of_lt (topk : Nat) (q : List Cand) (c : Cand)
    (h : q.length < topk) : boundedInsert topk q c = q.orderedInsert candLe c := by
  unfold boundedInsert
  rw [if_pos h]

theorem boundedInsert_of_ge (topk : Nat) (q : List Cand) (c : Cand)
    (h : ¬ q.length < topk) (hne : q ≠ []) :
    boundedInsert topk q c =
      if (q.getLast hne).dist > c.dist then q.dropLast.orderedInsert candLe c else q := by
  unfold boundedInsert
  rw [if_neg h, List.getLast?_eq_getLast _ hne]

theorem boundedInsert_indexSearch (k : Nat) (s : List Cand) (c : Cand)
    (hnd : ((s ++ [c]).map Cand.dist).Nodup) :
    boundedInsert k (indexSearch k s) c = indexSearch k (s ++ [c]) := by
  have hscd : c.dist ∉ s.map Cand.dist := by
    rw [List.map_append] at hnd
    rcases List.nodup_append.mp hnd with ⟨_, _, hdisj⟩
    intro hmem
    exact hdisj hmem (by simp)
  have hLs : List.Perm (s.insertionSort candLe) s := List.perm_insertionSort candLe s
  have hLlen : (s.insertionSort candLe).length = s.length := List.length_insertionSort candLe s
  have hq : indexSearch k s = (s.insertionSort candLe).take k := rfl
  have hqlen : (indexSearch k s).length = min k s.length := by
    rw [hq, List.length_take, hLlen]
  by_cases hql : (indexSearch k s).length < k
  · have hsk : s.length < k := by omega
    rw [boundedInsert_of_lt _ _ _ hql]
    have h1 : indexSearch k s = s.insertionSort candLe := by
      rw [hq]
      exact List.take_of_length_le (by omega)
    rw [h1]
    unfold indexSearch
    rw [sort_append_singleton]
    refine (List.take_of_length_le ?_).symm
    rw [List.orderedInsert_length]
    omega
  · cases k with
    | zero =>
      have hq0 : indexSearch 0 s = [] := by
        rw [hq, List.take_zero]
      have hr0 : indexSearch 0 (s ++ [c]) = [] := by
        unfold indexSearch
        rw [List.take_zero]
      rw [hq0, hr0]
      rfl
    | succ k' =>
      have hk_le : k' + 1 ≤ s.length := by omega
      have hTlen : (indexSearch (k' + 1) s).length = k' + 1 := by omega
      have hTne : indexSearch (k' + 1) s ≠ [] := by
        intro hcon
        rw [hcon] at hTlen
        simp at hTlen
      rw [boundedInsert_of_ge _ _ _ hql hTne]
      have hmm : (indexSearch (k' + 1) s).getLast hTne ∈ indexSearch (k' + 1) s :=
        List.getLast_mem hTne
      have hms : (indexSearch (k' + 1) s).getLast hTne ∈ s := by
        have h1 : (indexSearch (k' + 1) s).getLast hTne ∈ s.insertionSort candLe :=
          (List.take_sublist _ _).subset hmm
        exact hLs.subset h1
      have hmdist : ((indexSearch (k' + 1) s).getLast hTne).dist ≠ c.dist := by
        intro hcon
        exact hscd (hcon ▸ List.mem_map_of_mem Cand.dist hms)
      have hRHS : indexSearch (k' + 1) (s ++ [c]) =
          ((s.insertionSort candLe).orderedInsert candLe c).take (k' + 1) := by
        unfold indexSearch
        rw [sort_append_singleton]
      by_cases hmd : ((indexSearch (k' + 1) s).getLast hTne).dist > c.dist
      · rw [if_pos hmd]
        have hcm : candLe c ((indexSearch (k' + 1) s).getLast hTne) := Or.inl hmd
        have hTR : indexSearch (k' + 1) s ++ (s.insertionSort candLe).drop (k' + 1) =
            s.insertionSort candLe := by
          rw [hq]
          exact List.take_append_drop _ _
        have h2 : (s.insertionSort candLe).orderedInsert candLe c =
            ((indexSearch (k' + 1) s).orderedInsert candLe c) ++
              (s.insertionSort candLe).drop (k' + 1) := by
          conv_lhs => rw [← hTR]
          exact orderedInsert_append_left candLe c _ _ ⟨_, hmm, hcm⟩
        have h3 : (((s.insertionSort candLe).orderedInsert candLe c).take (k' + 1)) =
            ((indexSearch (k' + 1) s).orderedInsert candLe c).take (k' + 1) := by
          rw [h2]
          exact List.take_append_of_le_length (by rw [List.orderedInsert_length]; omega)
        rw [hRHS, h3]
        have hT0 : (indexSearch (k' + 1) s).dropLast ++
            [(indexSearch (k' + 1) s).getLast hTne] = indexSearch (k' + 1) s :=
          List.dropLast_append_getLast hTne
        have hT0len : ((indexSearch (k' + 1) s).dropLast).length = k' := by
          rw [List.length_dropLast, hTlen]
          omega
        by_cases hex : ∃ b ∈ (indexSearch (k' + 1) s).dropLast, candLe c b
        · have h4 : (indexSearch (k' + 1) s).orderedInsert candLe c =
              (((indexSearch (k' + 1) s).dropLast).orderedInsert candLe c) ++
                [(indexSearch (k' + 1) s).getLast hTne] := by
            conv_lhs => rw [← hT0]
            exact orderedInsert_append_left candLe c _ _ hex
          rw [h4]
          have h5 : ((((indexSearch (k' + 1) s).dropLast).orderedInsert candLe c) ++
              [(indexSearch (k' + 1) s).getLast hTne]).take (k' + 1) =
              (((indexSearch (k' + 1) s).dropLast).orderedInsert candLe c) := by
            have hXlen : (((indexSearch (k' + 1) s).dropLast).orderedInsert candLe c).length =
                k' + 1 := by
              rw [List.orderedInsert_length, hT0len]
            exact take_append_len _ _ _ hXlen
          rw [h5]
        · have hnex : ∀ b ∈ (indexSearch (k' + 1) s).dropLast, ¬ candLe c b := by
            intro b hb hr
            exact hex ⟨b, hb, hr⟩
          have h4 : (indexSearch (k' + 1) s).orderedInsert candLe c =
              (indexSearch (k' + 1) s).dropLast ++
                [c, (indexSearch (k' + 1) s).getLast hTne] := by
            conv_lhs => rw [← hT0]
            rw [orderedInsert_append_right candLe c _ _ hnex]
            congr 1
            rw [List.orderedInsert, if_pos hcm]
          rw [h4]
          have h5 : ((indexSearch (k' + 1) s).dropLast ++
              [c, (indexSearch (k' + 1) s).getLast hTne]).take (k' + 1) =
              (indexSearch (k' + 1) s).dropLast ++ [c] := by
            rw [take_append_len_add _ _ _ _ hT0len]
            rfl
          rw [h5, orderedInsert_of_forall_not candLe c _ hnex]
      · rw [if_neg hmd]
        have hmc : ((indexSearch (k' + 1) s).getLast hTne).dist < c.dist :=
          lt_of_le_of_ne (not_lt.mp hmd) hmdist
        have hTnotr : ∀ b ∈ indexSearch (k' + 1) s, ¬ candLe c b := by
          intro b hb hr
          have hbm : candLe b ((indexSearch (k' + 1) s).getLast hTne) :=
            sorted_all_le_getLast _ hTne (indexSearch_sorted _ _) b hb
          have hcmle : candLe c ((indexSearch (k' + 1) s).getLast hTne) :=
            IsTrans.trans _ _ _ hr hbm
          rcases hcmle with hlt | ⟨heq, _⟩
          · exact absurd hlt (not_lt.mpr (le_of_lt hmc))
          · exact hmdist heq.symm
        rw [hRHS]
        rw [hq] at hTnotr ⊢
        exact (take_orderedInsert_of_forall_not candLe c _ _ (by omega) hTnotr).symm

end DingoStore
namespace DingoStore

theorem foldl_boundedInsert_indexSearch (k : Nat) :
    ∀ (l s : List Cand), ((s ++ l).map Cand.dist).Nodup →
      l.foldl (boundedInsert k) (indexSearch k s) = indexSearch k (s ++ l) := by
  intro l
  induction l with
  | nil =>
    intro s _
    rw [List.append_nil]
    rfl
  | cons c t ih =>
    intro s h
    rw [List.foldl_cons]
    have h1 : ((s ++ [c]).map Cand.dist).Nodup := by
      refine List.Nodup.sublist (List.Sublist.map _ ?_) h
      exact List.Sublist.append_left (by simp) s
    rw [boundedInsert_indexSearch k s c h1]
    have h2 := ih (s ++ [c]) (by rw [List.append_assoc]; exact h)
    rw [h2, List.append_assoc]
    rfl

theorem take_orderedInsert_of_countP (k : Nat) (c : Cand) :
    ∀ (L : List Cand), List.Sorted candLe L → c.dist ∉ L.map Cand.dist →
      k ≤ L.countP (fun b => decide (candLe b c)) →
      (L.orderedInsert candLe c).take k = L.take k := by
  intro L
  induction L generalizing k with
  | nil =>
    intro _ _ hk
    have hk0 : k = 0 := by simpa using hk
    subst hk0
    rfl
  | cons b t ih =>
    intro hs hnd hk
    have hsb : ∀ x ∈ t, candLe b x := (List.sorted_cons.mp hs).1
    have hst : List.Sorted candLe t := (List.sorted_cons.mp hs).2
    have hndb : b.dist ≠ c.dist := by
      intro h
      exact hnd (by rw [List.map_cons]; exact List.mem_cons.mpr (Or.inl h.symm))
    have hndt : c.dist ∉ t.map Cand.dist := by
      intro h
      exact hnd (by rw [List.map_cons]; exact List.mem_cons_of_mem _ h)
    by_cases hr : candLe c b
    · have hall : ∀ x ∈ b :: t, ¬ candLe x c := by
        intro x hx hxc
        have hbx : candLe b x := by
          rcases List.mem_cons.mp hx with h1 | h1
          · rw [h1]
            exact Or.inr ⟨rfl, le_refl _⟩
          · exact hsb x h1
        have hbc : candLe b c := IsTrans.trans _ _ _ hbx hxc
        have hbceq : b = c := IsAntisymm.antisymm _ _ hbc hr
        exact hndb (congrArg Cand.dist hbceq)
      have hcount : (b :: t).countP (fun y => decide (candLe y c)) = 0 := by
        rw [List.countP_eq_zero]
        intro x hx
        simpa using hall x hx
      rw [hcount] at hk
      have hk0 : k = 0 := Nat.le_zero.mp hk
      subst hk0
      rfl
    · rw [List.orderedInsert, if_neg hr]
      cases k with
      | zero => rfl
      | succ k2 =>
        rw [List.take_succ_cons, List.take_succ_cons]
        congr 1
        apply ih k2 hst hndt
        rw [List.countP_cons] at hk
        by_cases hpb : candLe b c
        · rw [decide_eq_true hpb, if_pos rfl] at hk
          omega
        · rw [decide_eq_false hpb, if_neg (by simp)] at hk
          omega

theorem kS_drop_dominated (k : Nat) (d : Cand) (M : List Cand)
    (hnd : ((d :: M).map Cand.dist).Nodup)
    (hk : k ≤ M.countP (fun b => decide (candLe b d))) :
    indexSearch k (d :: M) = indexSearch k M := by
  have h1 : (d :: M).insertionSort candLe = (M.insertionSort candLe).orderedInsert candLe d := rfl
  unfold indexSearch
  rw [h1]
  apply take_orderedInsert_of_countP
  · exact List.sorted_insertionSort candLe M
  · intro hmem
    have hperm : List.Perm ((M.insertionSort candLe).map Cand.dist) (M.map Cand.dist) :=
      (List.perm_insertionSort candLe M).map Cand.dist
    have hdM : d.dist ∈ M.map Cand.dist := hperm.subset hmem
    rw [List.map_cons] at hnd
    exact (List.nodup_cons.mp hnd).1 hdM
  · rw [(List.perm_insertionSort candLe M).countP_eq]
    exact hk

theorem kS_drop_list (k : Nat) :
    ∀ (D M : List Cand), ((D ++ M).map Cand.dist).Nodup →
      (∀ d ∈ D, k ≤ M.countP (fun b => decide (candLe b d))) →
      indexSearch k (D ++ M) = indexSearch k M := by
  intro D
  induction D with
  | nil =>
    intro M _ _
    rfl
  | cons d D2 ih =>
    intro M hnd hdom
    have hstep : indexSearch k (d :: (D2 ++ M)) = indexSearch k (D2 ++ M) := by
      apply kS_drop_dominated
      · exact hnd
      · have h1 := hdom d (List.mem_cons_self d D2)
        have h2 : M.countP (fun b => decide (candLe b d)) ≤
            (D2 ++ M).countP (fun b => decide (candLe b d)) := by
          rw [List.countP_append]
          omega
        omega
    have htl : ((D2 ++ M).map Cand.dist).Nodup := by
      rw [List.cons_append, List.map_cons] at hnd
      exact (List.nodup_cons.mp hnd).2
    rw [List.cons_append, hstep]
    exact ih M htl (fun d2 hd2 => hdom d2 (List.mem_cons_of_mem _ hd2))

end DingoStore
namespace DingoStore

theorem perm_shuffle {α : Type} (P X F : List α) :
    List.Perm (P ++ (X ++ F)) (X ++ (P ++ F)) := by
  have h1 : P ++ (X ++ F) = (P ++ X) ++ F := (List.append_assoc _ _ _).symm
  have h2 : (X ++ P) ++ F = X ++ (P ++ F) := List.append_assoc _ _ _
  rw [h1, ← h2]
  exact (List.perm_append_comm).append_right F

theorem nodup_map_dist_of_subperm {l1 l2 : List Cand} (h : List.Subperm l1 l2)
    (hnd : (l2.map Cand.dist).Nodup) : (l1.map Cand.dist).Nodup := by
  rcases h with ⟨l, hperm, hsub⟩
  have h1 : (l.map Cand.dist).Nodup := List.Nodup.sublist (List.Sublist.map _ hsub) hnd
  exact ((hperm.map Cand.dist).nodup_iff).mp h1

theorem subperm_append {α : Type} {l1 l2 r1 r2 : List α}
    (hl : List.Subperm l1 l2) (hr : List.Subperm r1 r2) :
    List.Subperm (l1 ++ r1) (l2 ++ r2) := by
  rcases hl with ⟨a, hap, has⟩
  rcases hr with ⟨b, hbp, hbs⟩
  exact ⟨a ++ b, hap.append hbp, has.append hbs⟩

theorem indexSearch_subperm (k : Nat) (A : List Cand) :
    List.Subperm (indexSearch k A) A :=
  ((List.take_sublist k _).subperm).trans (List.perm_insertionSort candLe A).subperm

theorem flattenKS_subperm (k : Nat) :
    ∀ (bss : List (List Cand)),
      List.Subperm ((bss.map (indexSearch k)).flatten) bss.flatten := by
  intro bss
  induction bss with
  | nil => exact List.Subperm.refl _
  | cons A rest ih =>
    rw [List.map_cons, List.flatten_cons, List.flatten_cons]
    exact subperm_append (indexSearch_subperm k A) ih

theorem kS_prune_chunk (k : Nat) (A Z : List Cand)
    (hnd : ((A ++ Z).map Cand.dist).Nodup) :
    indexSearch k (indexSearch k A ++ Z) = indexSearch k (A ++ Z) := by
  have hperm1 : List.Perm (A ++ Z)
      ((A.insertionSort candLe).drop k ++ ((A.insertionSort candLe).take k ++ Z)) := by
    have h1 : List.Perm (A ++ Z) (A.insertionSort candLe ++ Z) :=
      ((List.perm_insertionSort candLe A).symm).append_right Z
    have h2 : List.Perm (A.insertionSort candLe ++ Z)
        (((A.insertionSort candLe).drop k ++ (A.insertionSort candLe).take k) ++ Z) := by
      conv_lhs => rw [← List.take_append_drop k (A.insertionSort candLe)]
      exact (List.perm_append_comm).append_right Z
    have h3 : (((A.insertionSort candLe).drop k ++ (A.insertionSort candLe).take k) ++ Z) =
        (A.insertionSort candLe).drop k ++ ((A.insertionSort candLe).take k ++ Z) :=
      List.append_assoc _ _ _
    rw [← h3]
    exact h1.trans h2
  rw [indexSearch_congr_of_perm k hperm1]
  have hT : indexSearch k A = (A.insertionSort candLe).take k := rfl
  rw [hT]
  refine (kS_drop_list k _ _ ?_ ?_).symm
  · exact ((hperm1.map Cand.dist).nodup_iff).mp hnd
  · intro d hd
    have hk : k < (A.insertionSort candLe).length := by
      by_contra hcon
      push_neg at hcon
      rw [List.drop_eq_nil_of_le hcon] at hd
      exact absurd hd (List.not_mem_nil d)
    have hTlen : ((A.insertionSort candLe).take k).length = k := by
      rw [List.length_take]
      omega
    have hall : ∀ b ∈ (A.insertionSort candLe).take k, candLe b d := by
      intro b hb
      have hs : List.Sorted candLe
          ((A.insertionSort candLe).take k ++ (A.insertionSort candLe).drop k) := by
        rw [List.take_append_drop]
        exact List.sorted_insertionSort candLe A
      exact (List.pairwise_append.mp hs).2.2 b hb d hd
    have hTcount : ((A.insertionSort candLe).take k).countP
        (fun b => decide (candLe b d)) = k := by
      have h1 : ((A.insertionSort candLe).take k).countP (fun b => decide (candLe b d)) =
          ((A.insertionSort candLe).take k).length :=
        List.countP_eq_length.mpr (fun b hb => decide_eq_true (hall b hb))
      rw [h1, hTlen]
    rw [List.countP_append, hTcount]
    omega

theorem kS_prune_chunks_aux (k : Nat) :
    ∀ (bss : List (List Cand)) (P : List Cand),
      ((P ++ bss.flatten).map Cand.dist).Nodup →
      indexSearch k (P ++ (bss.map (indexSearch k)).flatten) =
        indexSearch k (P ++ bss.flatten) := by
  intro bss
  induction bss with
  | nil =>
    intro P _
    rfl
  | cons A rest ih =>
    intro P hnd
    rw [List.map_cons, List.flatten_cons, List.flatten_cons]
    have hsubF : List.Subperm ((rest.map (indexSearch k)).flatten) rest.flatten :=
      flattenKS_subperm k rest
    have hndA : ((A ++ (P ++ rest.flatten)).map Cand.dist).Nodup := by
      refine ((( perm_shuffle P A rest.flatten).map Cand.dist).nodup_iff).mp ?_
      rw [← List.flatten_cons]
      exact hnd
    have hndAKS : ((A ++ (P ++ (rest.map (indexSearch k)).flatten)).map Cand.dist).Nodup := by
      refine nodup_map_dist_of_subperm ?_ hndA
      exact subperm_append (List.Subperm.refl A) (subperm_append (List.Subperm.refl P) hsubF)
    have step1 : indexSearch k (P ++ (indexSearch k A ++ (rest.map (indexSearch k)).flatten)) =
        indexSearch k (indexSearch k A ++ (P ++ (rest.map (indexSearch k)).flatten)) :=
      indexSearch_congr_of_perm k (perm_shuffle P (indexSearch k A) _)
    have step2 : indexSearch k (indexSearch k A ++ (P ++ (rest.map (indexSearch k)).flatten)) =
        indexSearch k (A ++ (P ++ (rest.map (indexSearch k)).flatten)) :=
      kS_prune_chunk k A _ hndAKS
    have step3 : indexSearch k (A ++ (P ++ (rest.map (indexSearch k)).flatten)) =
        indexSearch k ((P ++ A) ++ (rest.map (indexSearch k)).flatten) := by
      refine indexSearch_congr_of_perm k ?_
      refine (perm_shuffle P A _).symm.trans ?_
      rw [List.append_assoc]
    have step4 : indexSearch k ((P ++ A) ++ (rest.map (indexSearch k)).flatten) =
        indexSearch k ((P ++ A) ++ rest.flatten) := by
      apply ih (P ++ A)
      rw [List.append_assoc]
      rw [List.flatten_cons] at hnd
      exact hnd
    have step5 : (P ++ A) ++ rest.flatten = P ++ (A ++ rest.flatten) :=
      List.append_assoc _ _ _
    rw [step1, step2, step3, step4, step5]

end DingoStore
namespace DingoStore

/-- C1 (amended). When all candidate distances are pairwise distinct, the
brute-force path of `VectorReader::BruteForceSearch` — batching the data CF
into transient Flat indices and merging each batch's per-query top-k through
the bounded priority queue — returns exactly the same ordered top-k list as a
direct index search over the whole data set, for every batch size and every
k. The distinctness hypothesis is necessary: the C++ merge guard at
vector_reader.cc:1681 compares only distances, so on ties across batch
boundaries the queue can keep a different (higher-id) candidate than the
direct search would, as `bruteForceSearch_tie_counterexample` shows. -/
theorem bruteForceSearch_eq_indexSearch (k B : Nat) (data : List Cand)
    (hnd : (data.map Cand.dist).Nodup) :
    bruteForceSearch k B data = indexSearch k data := by
  have hflat : (chunks B data).flatten = data := chunks_flatten B data
  have hndf : (((chunks B data).flatten).map Cand.dist).Nodup := by
    rw [hflat]
    exact hnd
  have hndKS : ((((chunks B data).map (indexSearch k)).flatten).map Cand.dist).Nodup :=
    nodup_map_dist_of_subperm (flattenKS_subperm k (chunks B data)) hndf
  unfold bruteForceSearch
  rw [foldl_foldl_flatten]
  have h0 : indexSearch k ([] : List Cand) = [] := by
    unfold indexSearch
    exact List.take_nil
  rw [← h0]
  rw [foldl_boundedInsert_indexSearch k _ [] (by rw [List.nil_append]; exact hndKS)]
  rw [List.nil_append]
  have haux := kS_prune_chunks_aux k (chunks B data) []
      (by rw [List.nil_append]; exact hndf)
  rw [List.nil_append, List.nil_append] at haux
  rw [haux, hflat]

/-- C1 counterexample. With two candidates at the same distance split across
two scan batches, brute-force search (batch size 1, top-1) keeps vector id 5
while the direct index search returns vector id 3: the top-k id sets differ,
refuting the claim that the two paths always agree. The replacement guard of
the bounded priority queue (`top.distance > distance` at vector_reader.cc:1681)
ignores the vector-id tie-break that `DistanceResult::operator<` applies, so
an equal-distance candidate arriving later is dropped instead of replacing
the queued one. -/
theorem bruteForceSearch_tie_counterexample :
    (bruteForceSearch 1 1 [⟨5, 1⟩, ⟨3, 1⟩]).map Cand.vid = [5] ∧
    (indexSearch 1 [⟨5, 1⟩, ⟨3, 1⟩]).map Cand.vid = [3] ∧
    ¬ (5 : Int) = 3 := by
  refine ⟨?_, ?_, by decide⟩ <;> decide

/-- Witness for C1: on a concrete store of three candidates with pairwise
distinct distances, brute force with batch size 2 and k = 2 agrees with the
direct index search. -/
theorem bruteForceSearch_eq_indexSearch_witness :
    ((([⟨1, 10⟩, ⟨2, 5⟩, ⟨3, 7⟩] : List Cand).map Cand.dist).Nodup) ∧
    bruteForceSearch 2 2 [⟨1, 10⟩, ⟨2, 5⟩, ⟨3, 7⟩] = indexSearch 2 [⟨1, 10⟩, ⟨2, 5⟩, ⟨3, 7⟩] :=
  ⟨by decide, bruteForceSearch_eq_indexSearch 2 2 _ (by decide)⟩

end DingoStore
